import Mathlib

/-!
Shallow embedding of `relay-assignment.py` (optimal relay-leg assignment).

The source consists of a `DisjointSet` union-find class and the function
`optimal_assignment(groups, runners, race)`, which

1. merges overlapping constraint groups with the disjoint set,
2. builds a symbolic cost matrix of `(rank, time)` pairs,
3. encodes each pair as `rank * big + time` for a power-of-ten `big`,
4. enumerates every mapping from merged groups to race groups,
5. per candidate masks forbidden entries to `inf = 2 * N * N * big`,
   solves a minimum-cost perfect matching, and
6. keeps the cheapest matching whose total is below `inf`, returning `None`
   if no candidate qualifies.

Python dictionaries are modelled as insertion-ordered association lists,
raised exceptions as `Option.none`, floating-point paces/distances as exact
rationals, and `scipy.optimize.linear_sum_assignment` (an external,
documented-exact assignment solver) as a brute-force minimum over all
permutations.
-/

set_option linter.unusedVariables false

/-- Lookup in an insertion-ordered association list (Python `d[k]` / `d.get(k)`). -/
def alookup {β : Type} (m : List (String × β)) (k : String) : Option β :=
  (m.find? (fun p => p.1 == k)).map (fun p => p.2)

/-- Python `d[k] = v`: overwrite in place when the key exists (keeping the
key's position in iteration order), else append at the end. -/
def aupsert {β : Type} : List (String × β) → String → β → List (String × β)
  | [], k, v => [(k, v)]
  | p :: t, k, v => if p.1 == k then (k, v) :: t else p :: aupsert t k v

/-- Python `del d[k]` (keys are unique, so filtering removes exactly one entry). -/
def aerase {β : Type} (m : List (String × β)) (k : String) : List (String × β) :=
  m.filter (fun p => !(p.1 == k))

/-- Evaluate `f` on each element left to right, stopping at the first
exception (Python comprehension semantics). -/
def omapM {α β : Type} (f : α → Option β) : List α → Option (List β)
  | [] => some []
  | x :: xs => do
    let y ← f x
    let ys ← omapM f xs
    return y :: ys

/-- Fold left to right, stopping at the first exception (a Python `for` loop
whose body may raise). -/
def ofoldlM {σ α : Type} (f : σ → α → Option σ) : σ → List α → Option σ
  | s, [] => some s
  | s, x :: xs => (f s x).bind (fun s2 => ofoldlM f s2 xs)

/-- State of the source's `DisjointSet` class: the `_leader` and `_group` dicts. -/
structure DisjointSet where
  leader : List (String × String)
  group : List (String × List String)
deriving DecidableEq, Repr

/-- `DisjointSet.add`: register `elem` as a singleton group if not present. -/
def DisjointSet.add (s : DisjointSet) (elem : String) : DisjointSet :=
  if (alookup s.leader elem).isNone then
    { leader := aupsert s.leader elem elem, group := aupsert s.group elem [elem] }
  else s

/-- Python `ga |= gb` on sets, keeping the members of `ga` first. -/
def listUnion (ga gb : List String) : List String :=
  ga ++ gb.filter (fun x => !(ga.contains x))

/-- `DisjointSet.merge`: union the groups of `a` and `b`.  A missing key raises
`KeyError` in Python (the source's explicit `None` check is unreachable because
`self._leader[a]` already raises); raising is modelled as `none`.  Note that the
source performs `del self._group[lb]` even when `la == lb`. -/
def DisjointSet.merge (s : DisjointSet) (a b : String) : Option DisjointSet := do
  let la ← alookup s.leader a
  let lb ← alookup s.leader b
  let ga ← alookup s.group la
  let gb ← alookup s.group lb
  let (la, ga, lb, gb) := if ga.length < gb.length then (lb, gb, la, ga) else (la, ga, lb, gb)
  let g1 := aupsert s.group la (listUnion ga gb)
  let g2 := aerase g1 lb
  let l1 := gb.foldl (fun m e => aupsert m e la) s.leader
  return { leader := l1, group := g2 }

/-- `DisjointSet.groups`: collect `self._group[i]` for every self-leader `i`,
in dict order; indexing `_group` can raise `KeyError`. -/
def DisjointSet.groups (s : DisjointSet) : Option (List (List String)) :=
  omapM (fun p => alookup s.group p.1) (s.leader.filter (fun p => p.2 == p.1))

/-- A runner record: the `runners` dict maps a name to its `pace` (seconds per
mile) and `ranking` (1-based leg indices, most preferred first).  The dict is
modelled as an insertion-ordered list of records with distinct names. -/
structure Runner where
  name : String
  pace : ℚ
  ranking : List Nat
deriving DecidableEq, Repr

/-- The race description: `legs` (each a list of segment distances in miles)
and `groups` (the race groups: lists of 1-based leg indices). -/
structure Race where
  legs : List (List ℚ)
  groups : List (List Nat)
deriving DecidableEq, Repr

/-- The keys of the `runners` dict, in order. -/
def namesOf (runners : List Runner) : List String := runners.map (fun r => r.name)

/-- One iteration of `for group in groups: for elem in group[1:]: ds.merge(group[0], elem)`.
An empty group performs no merges (and never evaluates `group[0]`). -/
def mergeGroup (ds : DisjointSet) (g : List String) : Option DisjointSet :=
  match g with
  | [] => some ds
  | g0 :: rest => ofoldlM (fun s e => s.merge g0 e) ds rest

/-- The disjoint set after adding every runner and merging every constraint group. -/
def dsOf (groups : List (List String)) (runners : List Runner) : Option DisjointSet :=
  ofoldlM mergeGroup ((namesOf runners).foldl DisjointSet.add (DisjointSet.mk [] [])) groups

/-- `groups = [i for i in ds.groups() if len(i) > 1]`: the merged constraint
groups of size at least two. -/
def bigGroupsOf (groups : List (List String)) (runners : List Runner) :
    Option (List (List String)) := do
  let ds ← dsOf groups runners
  let gs ← ds.groups
  return gs.filter (fun g => 1 < g.length)

/-- `all_group_assignments`: every tuple of length `n` with entries below `k`,
built exactly as the source's repeated comprehension (prepending an index). -/
def allGroupAssignments : Nat → Nat → List (List Nat)
  | 0, _ => [[]]
  | n + 1, k =>
      (allGroupAssignments n k).flatMap (fun e => (List.range k).map (fun i => i :: e))

/-- `rank(r, i) = runners[index_to_runner[r]]['ranking'].index(i+1)`;
`list.index` raises `ValueError` when the element is missing. -/
def rank? (runners : List Runner) (r i : Nat) : Option Nat := do
  let rn ← runners.get? r
  rn.ranking.findIdx? (fun x => x == i + 1)

/-- `time(r, i) = int(runners[...]['pace'] * sum(race['legs'][i]))`.  Python's
`int` truncates toward zero; pace and distances are nonnegative in every use,
where truncation coincides with the floor. -/
def time? (runners : List Runner) (race : Race) (r i : Nat) : Option Nat := do
  let rn ← runners.get? r
  let leg ← race.legs.get? i
  return (rn.pace * leg.sum).floor.toNat

/-- `symbolic_C[r][i] = (rank(r, i), time(r, i))` for `r, i` below `N`,
evaluated row-major with `rank` before `time` (the first exception wins). -/
def symbolicC (runners : List Runner) (race : Race) (N : Nat) :
    Option (List (List (Nat × Nat))) :=
  omapM (fun r => omapM (fun i => do
    let rk ← rank? runners r i
    let t ← time? runners race r i
    return (rk, t)) (List.range N)) (List.range N)

/-- Python `max` over a list of naturals; raises `ValueError` on the empty list. -/
def listMax? : List Nat → Option Nat
  | [] => none
  | x :: xs => some (xs.foldl max x)

/-- `max(max(i[1] for i in r) for r in symbolic_C)`: largest time in the matrix. -/
def maxTime? (C : List (List (Nat × Nat))) : Option Nat := do
  let ms ← omapM (fun row => listMax? (row.map (fun p => p.2))) C
  listMax? ms

/-- Fueled ceiling of `log10` (structural recursion so that the kernel can
evaluate it); `ceilLog10Aux fuel M` is the least `k` with `M ≤ 10 ^ k`
whenever `M ≤ fuel`. -/
def ceilLog10Aux : Nat → Nat → Nat
  | 0, _ => 0
  | fuel + 1, M => if M ≤ 1 then 0 else ceilLog10Aux fuel ((M + 9) / 10) + 1

/-- `ceil(log10 M)` for `M ≥ 1`: the least `k` with `M ≤ 10 ^ k`. -/
def ceilLog10 (M : Nat) : Nat := ceilLog10Aux M M

/-- `big = int(10**np.ceil(np.log10(M)))` for `M = 2 * N * max_time`, with the
real-valued formula read exactly: `10 ^ ceil(log10 M)` for `M ≥ 1`, and `0` for
`M = 0` (`np.log10(0) = -inf` and `10.0 ** -inf = 0.0`). -/
def bigOf (M : Nat) : Nat := if M = 0 then 0 else 10 ^ ceilLog10 M

/-- `C[r][i] = sym[0]*big + sym[1]`: the encoded integer cost matrix. -/
def encMatrix (symC : List (List (Nat × Nat))) (big : Nat) : List (List Nat) :=
  symC.map (fun row => row.map (fun sym => sym.1 * big + sym.2))

/-- Read entry `(r, i)` of a matrix stored as a list of rows. -/
def entry (C : List (List Nat)) (r i : Nat) : Nat := (((C.get? r).getD []).get? i).getD 0

/-- In-bounds write of entry `(r, i)` (numpy element assignment). -/
def setEntry (C : List (List Nat)) (r i v : Nat) : List (List Nat) :=
  C.set r (((C.get? r).getD []).set i v)

/-- The inner masking loop for one member `mem` of a merged group:
`for i in range(N): if i+1 not in ok: C_masked[runner_to_index[mem]][i] = inf`.
`runner_to_index` is a dict keyed by the (distinct) runner names, so the lookup
is the index of `mem` in `names`; a missing name raises `KeyError`. -/
def maskMem (N : Nat) (ok : List Nat) (names : List String) (infv : Nat)
    (m : List (List Nat)) (mem : String) : Option (List (List Nat)) :=
  ofoldlM (fun m i =>
    if ok.contains (i + 1) then some m
    else do
      let r ← names.findIdx? (fun nm => nm == mem)
      return setEntry m r i infv) m (List.range N)

/-- The masking loop over `enumerate(groups)` for one candidate `p`:
`ok = race['groups'][possibility[ig]]`, then mask every member's forbidden legs. -/
def applyMask (C : List (List Nat)) (infv : Nat) (gsBig : List (List String))
    (raceGroups : List (List Nat)) (p : List Nat) (names : List String) (N : Nat) :
    Option (List (List Nat)) :=
  ofoldlM (fun m igg => do
    let pi ← p.get? igg.1
    let ok ← raceGroups.get? pi
    ofoldlM (fun m mem => maskMem N ok names infv m mem) m igg.2) C gsBig.enum

/-- All lists obtained by inserting `x` at one position of the argument. -/
def insertions (x : Nat) : List Nat → List (List Nat)
  | [] => [[x]]
  | y :: ys => (x :: y :: ys) :: (insertions x ys).map (fun zs => y :: zs)

/-- All permutations of a list (structural, kernel-evaluable). -/
def perms : List Nat → List (List Nat)
  | [] => [[]]
  | x :: xs => (perms xs).flatMap (insertions x)

/-- Total cost of the matching sending row `r` to column `σ r`:
`C_masked[row_ind, col_ind].sum()`. -/
def permCost (C : List (List Nat)) (σ : List Nat) : Nat :=
  ((List.range σ.length).map (fun r => entry C r (σ.getD r 0))).sum

/-- Model of `scipy.optimize.linear_sum_assignment` on a square matrix: an
exact minimum-cost perfect matching, returned as the list of column indices
`col_ind` (row `r` is matched to column `col_ind[r]`; `row_ind = 0..N-1`).
The solver is external and documented to return an exact optimum; tie-breaking
is unspecified, and this model keeps the first optimum it encounters. -/
def minPerm (C : List (List Nat)) (N : Nat) : List Nat :=
  (perms (List.range N)).foldl
    (fun best σ => if permCost C σ < permCost C best then σ else best) (List.range N)

/-- `[{i: index_to_runner[r] for r, i in zip(row_ind, col_ind)}[i] for i in range(N)]`:
the leg-indexed list of runner names.  `col_ind` is a permutation, so each leg
has exactly one matched row and the dict lookup never raises. -/
def assignmentOf (names : List String) (σ : List Nat) (N : Nat) : List String :=
  (List.range N).map (fun i =>
    (((names.zip σ).find? (fun q => q.2 == i)).map (fun q => q.1)).getD "")

/-- One iteration of the candidate loop: mask, solve, and keep the result when
`cost < inf and cost < best_cost`. -/
def selStep (C : List (List Nat)) (infv : Nat) (gsBig : List (List String))
    (raceGroups : List (List Nat)) (names : List String) (N : Nat)
    (acc : Option (List String) × Nat) (p : List Nat) :
    Option (Option (List String) × Nat) := do
  let cm ← applyMask C infv gsBig raceGroups p names N
  let σ := minPerm cm N
  let cost := permCost cm σ
  return if cost < infv ∧ cost < acc.2 then (some (assignmentOf names σ N), cost) else acc

/-- `optimal_assignment(groups, runners, race)`.  The outer `Option` is a raised
exception; the inner one is the function's own result (`None` when no candidate
produced a fully feasible matching). -/
def optimal_assignment (groups : List (List String)) (runners : List Runner)
    (race : Race) : Option (Option (List String)) := do
  let gsBig ← bigGroupsOf groups runners
  let N := runners.length
  let cands := allGroupAssignments gsBig.length race.groups.length
  let symC ← symbolicC runners race N
  let mt ← maxTime? symC
  let big := bigOf (2 * N * mt)
  let C := encMatrix symC big
  let infv := 2 * N * N * big
  let res ← ofoldlM (selStep C infv gsBig race.groups (namesOf runners) N) (none, infv) cands
  return res.1

/-! ### Arithmetic facts about the power-of-ten bound `big` -/

theorem ceilLog10Aux_ge (fuel : Nat) : ∀ M, M ≤ fuel → M ≤ 10 ^ ceilLog10Aux fuel M := by
  induction fuel with
  | zero => intro M h; interval_cases M; simp [ceilLog10Aux]
  | succ n ih =>
    intro M h
    show M ≤ 10 ^ (if M ≤ 1 then 0 else ceilLog10Aux n ((M + 9) / 10) + 1)
    split
    · next h1 => simpa using h1
    · next h1 =>
      have hrec : (M + 9) / 10 ≤ n := by omega
      have hm : (M + 9) / 10 ≤ 10 ^ ceilLog10Aux n ((M + 9) / 10) := ih _ hrec
      calc M ≤ 10 * ((M + 9) / 10) := by omega
        _ ≤ 10 * 10 ^ ceilLog10Aux n ((M + 9) / 10) := Nat.mul_le_mul_left 10 hm
        _ = 10 ^ (ceilLog10Aux n ((M + 9) / 10) + 1) := by rw [pow_succ]; ring

theorem ceilLog10Aux_min (fuel : Nat) :
    ∀ M k, M ≤ fuel → M ≤ 10 ^ k → ceilLog10Aux fuel M ≤ k := by
  induction fuel with
  | zero => intro M k h hk; simp [ceilLog10Aux]
  | succ n ih =>
    intro M k h hk
    show (if M ≤ 1 then 0 else ceilLog10Aux n ((M + 9) / 10) + 1) ≤ k
    split
    · exact Nat.zero_le k
    · next h1 =>
      cases k with
      | zero => simp at hk; omega
      | succ k' =>
        have hk' : (M + 9) / 10 ≤ 10 ^ k' := by
          have : M ≤ 10 * 10 ^ k' := by
            calc M ≤ 10 ^ (k' + 1) := hk
              _ = 10 ^ k' * 10 := pow_succ 10 k'
              _ = 10 * 10 ^ k' := Nat.mul_comm _ 10
          omega
        exact Nat.succ_le_succ (ih _ k' (by omega) hk')

theorem bigOf_eq_pow (M : Nat) (h : 1 ≤ M) : bigOf M = 10 ^ ceilLog10 M := by
  unfold bigOf; split <;> omega

theorem le_bigOf (M : Nat) (h : 1 ≤ M) : M ≤ bigOf M := by
  rw [bigOf_eq_pow M h]; exact ceilLog10Aux_ge M M le_rfl

theorem bigOf_min (M k : Nat) (h : 1 ≤ M) (hk : M ≤ 10 ^ k) : bigOf M ≤ 10 ^ k := by
  rw [bigOf_eq_pow M h]
  exact Nat.pow_le_pow_right (by omega) (ceilLog10Aux_min M M k le_rfl hk)

theorem maxTime?_nil : maxTime? [] = none := by decide

theorem symbolicC_zero (runners : List Runner) (race : Race) :
    symbolicC runners race 0 = some [] := rfl

/-- If the pipeline produced a maximal time, there is at least one runner. -/
theorem pos_of_maxTime (runners : List Runner) (race : Race)
    (symC : List (List (Nat × Nat))) (mt : Nat)
    (hsym : symbolicC runners race runners.length = some symC)
    (hmt : maxTime? symC = some mt) : 1 ≤ runners.length := by
  by_contra h
  have h0 : runners.length = 0 := by omega
  rw [h0, symbolicC_zero] at hsym
  cases hsym
  rw [maxTime?_nil] at hmt
  cases hmt

/-- C3 (counterexample): for one runner with pace 50 on a single 1-mile leg,
`max_time = 50` and `2 * N * max_time = 100` is an exact power of ten, so the
source computes `big = 10 ** ceil(log10 100) = 100`, which does not strictly
exceed `2 * N * max_time` — the claimed "smallest power of ten strictly
exceeding `2*N*max_time`" would be 1000. -/
theorem C3_counterexample :
    (symbolicC [⟨"A", 50, [1]⟩] ⟨[[1]], []⟩ 1).bind maxTime? = some 50 ∧
    bigOf (2 * 1 * 50) = 100 ∧ ¬ 2 * 1 * 50 < bigOf (2 * 1 * 50) := by
  refine ⟨by with_unfolding_all decide, by decide, by decide⟩

/-- C3 (amended): whenever `max_time ≥ 1`, the scalar `big` computed by
`optimal_assignment` is a power of ten that is greater than or equal to
`2 * N * max_time`, and it is the smallest such power of ten (when
`2 * N * max_time` is itself a power of ten, `big` equals it rather than
strictly exceeding it). -/
theorem C3_amended (runners : List Runner) (race : Race)
    (symC : List (List (Nat × Nat))) (mt : Nat)
    (hsym : symbolicC runners race runners.length = some symC)
    (hmt : maxTime? symC = some mt) (hpos : 1 ≤ mt) :
    bigOf (2 * runners.length * mt) = 10 ^ ceilLog10 (2 * runners.length * mt) ∧
    2 * runners.length * mt ≤ bigOf (2 * runners.length * mt) ∧
    ∀ k, 2 * runners.length * mt ≤ 10 ^ k →
      bigOf (2 * runners.length * mt) ≤ 10 ^ k := by
  have hN : 1 ≤ runners.length := pos_of_maxTime runners race symC mt hsym hmt
  have hM : 1 ≤ 2 * runners.length * mt := Nat.mul_pos (Nat.mul_pos (by omega) hN) hpos
  exact ⟨bigOf_eq_pow _ hM, le_bigOf _ hM, fun k hk => bigOf_min _ k hM hk⟩

/-- C3 (amended) at a concrete input: one runner, pace 50, one 1-mile leg. -/
theorem C3_witness :
    bigOf (2 * 1 * 50) = 10 ^ ceilLog10 (2 * 1 * 50) ∧
    2 * 1 * 50 ≤ bigOf (2 * 1 * 50) ∧
    ∀ k, 2 * 1 * 50 ≤ 10 ^ k → bigOf (2 * 1 * 50) ≤ 10 ^ k := by
  have h := C3_amended [⟨"A", 50, [1]⟩] ⟨[[1]], []⟩ [[(0, 50)]] 50
    (by with_unfolding_all decide) (by decide) (by decide)
  simpa using h

/-! ### C5: the `DisjointSet` corruption on redundant merges -/

/-- C5 (code bug): merging two elements that already share a group deletes the
shared group entry (`del self._group[lb]` with `la == lb`), so after processing
the overlapping constraint groups `[["A","B"], ["B","A"]]`, `groups()` raises a
`KeyError` (modelled as `none`) instead of returning the connected components.
The second conjunct shows the same state before the redundant merge is fine. -/
theorem C5_overlap_corrupts :
    (do
      let s0 := DisjointSet.add (DisjointSet.add ⟨[], []⟩ "A") "B"
      let s1 ← s0.merge "A" "B"
      let s2 ← s1.merge "B" "A"
      s2.groups) = none ∧
    (do
      let s0 := DisjointSet.add (DisjointSet.add ⟨[], []⟩ "A") "B"
      let s1 ← s0.merge "A" "B"
      s1.groups) = some [["A", "B"]] := by
  exact ⟨by decide, by decide⟩

/-! ### C7: no runner-count versus leg-count validation -/

/-- C7 (code bug): with 1 runner and 2 legs the source silently returns the
partial assignment `["A"]` covering only leg 0 — it never checks
`len(runners) == len(race['legs'])`, contradicting the spec's "must refuse to
run" error-handling requirement. -/
theorem C7_silent_partial_assignment :
    optimal_assignment [] [⟨"A", 1, [1, 2]⟩] ⟨[[1], [1]], []⟩ = some (some ["A"]) ∧
    ([⟨"A", 1, [1, 2]⟩] : List Runner).length = 1 ∧
    (Race.mk [[1], [1]] []).legs.length = 2 := by
  refine ⟨by with_unfolding_all decide, rfl, rfl⟩


/-! ### Association-list lemmas -/

theorem alookup_nil {β : Type} (k : String) : alookup ([] : List (String × β)) k = none := rfl

theorem alookup_cons {β : Type} (p : String × β) (t : List (String × β)) (k : String) :
    alookup (p :: t) k = if p.1 = k then some p.2 else alookup t k := by
  by_cases h : p.1 = k
  · have hb : (p.1 == k) = true := by simp [h]
    simp [alookup, List.find?, hb, h]
  · have hb : (p.1 == k) = false := by simp [h]
    simp [alookup, List.find?, hb, h]

theorem alookup_aupsert {β : Type} (m : List (String × β)) (k : String) (v : β) (x : String) :
    alookup (aupsert m k v) x = if x = k then some v else alookup m x := by
  induction m with
  | nil =>
    rw [aupsert, alookup_cons]
    split_ifs with h1 h2 <;> simp_all [alookup_nil]
  | cons p t ih =>
    rw [aupsert]
    by_cases hpk : p.1 = k
    · rw [if_pos (by simp [hpk]), alookup_cons, alookup_cons]
      split_ifs <;> simp_all
    · rw [if_neg (by simp [hpk]), alookup_cons, alookup_cons, ih]
      split_ifs <;> simp_all

theorem alookup_aerase {β : Type} (m : List (String × β)) (k x : String) :
    alookup (aerase m k) x = if x = k then none else alookup m x := by
  induction m with
  | nil => rw [aerase]; simp only [List.filter_nil, alookup_nil]; split_ifs <;> rfl
  | cons p t ih =>
    rw [aerase, List.filter_cons]
    simp only [aerase] at ih
    by_cases hpk : p.1 = k
    · rw [if_neg (by simp [hpk]), ih, alookup_cons]
      split_ifs <;> simp_all
    · rw [if_pos (by simp [hpk]), alookup_cons, ih, alookup_cons]
      split_ifs <;> simp_all

theorem alookup_foldl_aupsert (l : List String) (L : String)
    (m : List (String × String)) (x : String) :
    alookup (l.foldl (fun m e => aupsert m e L) m) x =
      if x ∈ l then some L else alookup m x := by
  induction l generalizing m with
  | nil => simp
  | cons e t ih =>
    rw [List.foldl_cons, ih, alookup_aupsert]
    by_cases hx : x ∈ t <;> by_cases hxe : x = e <;> simp [hx, hxe]

theorem mem_listUnion (x : String) (ga gb : List String) :
    x ∈ listUnion ga gb ↔ x ∈ ga ∨ x ∈ gb := by
  simp only [listUnion, List.mem_append, List.mem_filter, Bool.not_eq_true']
  constructor
  · rintro (h | ⟨h, _⟩) <;> tauto
  · rintro (h | h)
    · exact Or.inl h
    · by_cases hga : x ∈ ga
      · exact Or.inl hga
      · exact Or.inr ⟨h, by simpa using hga⟩

/-! ### C6: behaviour of `merge` -/

/-- C6 (counterexample): in the reachable, well-formed state obtained by
`add "A"; add "B"; merge("A","B")`, both `"A"` and `"B"` have been added, yet a
further `merge("A","B")` does not union the two (identical) groups: it succeeds
and deletes the shared group entry, so afterwards no group contains `"A"` or
`"B"` at all and `groups()` raises a `KeyError`. -/
theorem C6_counterexample :
    ((DisjointSet.add (DisjointSet.add ⟨[], []⟩ "A") "B").merge "A" "B") =
      some ⟨[("A", "A"), ("B", "A")], [("A", ["A", "B"])]⟩ ∧
    DisjointSet.merge ⟨[("A", "A"), ("B", "A")], [("A", ["A", "B"])]⟩ "A" "B" =
      some ⟨[("A", "A"), ("B", "A")], []⟩ ∧
    DisjointSet.groups ⟨[("A", "A"), ("B", "A")], []⟩ = none := by
  refine ⟨by decide, by decide, by decide⟩

/-- C6 (amended): `merge(a, b)` fails with a precondition (key) error whenever
`a` or `b` has not been added; and when both have been added and their groups
exist and are distinct (as in every uncorrupted state), it succeeds and unions
the two groups.  (After the corruption exhibited in the counterexample, a merge
of two added elements can also fail, and a same-group merge succeeds without
unioning.) -/
theorem C6_amended (s : DisjointSet) (a b : String) :
    (alookup s.leader a = none ∨ alookup s.leader b = none → s.merge a b = none) ∧
    (∀ la lb ga gb, alookup s.leader a = some la → alookup s.leader b = some lb →
      alookup s.group la = some ga → alookup s.group lb = some gb →
      a ∈ ga → b ∈ gb → la ≠ lb →
      ∃ s' L g, s.merge a b = some s' ∧ alookup s'.leader a = some L ∧
        alookup s'.leader b = some L ∧ alookup s'.group L = some g ∧
        ∀ x, x ∈ g ↔ x ∈ ga ∨ x ∈ gb) := by
  constructor
  · rintro (h | h)
    · simp [DisjointSet.merge, h]
    · cases hla : alookup s.leader a <;> simp [DisjointSet.merge, hla, h]
  · intro la lb ga gb hla hlb hga hgb haga hbgb hne
    rw [DisjointSet.merge]
    simp only [hla, hlb, hga, hgb, Option.bind_eq_bind, Option.some_bind]
    split
    · next hlen =>
      refine ⟨_, lb, listUnion gb ga, rfl, ?_, ?_, ?_, ?_⟩
      · rw [alookup_foldl_aupsert, if_pos haga]
      · rw [alookup_foldl_aupsert]
        split_ifs with h
        · rfl
        · exact hlb
      · rw [alookup_aerase, if_neg (fun hh => hne hh.symm), alookup_aupsert, if_pos rfl]
      · intro x
        rw [mem_listUnion]
        tauto
    · next hlen =>
      refine ⟨_, la, listUnion ga gb, rfl, ?_, ?_, ?_, ?_⟩
      · rw [alookup_foldl_aupsert]
        split_ifs with h
        · rfl
        · exact hla
      · rw [alookup_foldl_aupsert, if_pos hbgb]
      · rw [alookup_aerase, if_neg hne, alookup_aupsert, if_pos rfl]
      · intro x
        rw [mem_listUnion]

/-- C6 (amended) applied at a concrete state: after `add "A"; add "B"`, merging
`"A"` and `"B"` succeeds and the resulting group is exactly the union. -/
theorem C6_witness :
    ∃ s' L g,
      DisjointSet.merge ⟨[("A", "A"), ("B", "B")], [("A", ["A"]), ("B", ["B"])]⟩ "A" "B" =
        some s' ∧
      alookup s'.leader "A" = some L ∧ alookup s'.leader "B" = some L ∧
      alookup s'.group L = some g ∧ ∀ x, x ∈ g ↔ x ∈ ["A"] ∨ x ∈ ["B"] :=
  (C6_amended ⟨[("A", "A"), ("B", "B")], [("A", ["A"]), ("B", ["B"])]⟩ "A" "B").2
    "A" "B" ["A"] ["B"] (by decide) (by decide) (by decide) (by decide)
    (by decide) (by decide) (by decide)

/-! ### Lemmas about `omapM`, `ofoldlM`, and `listMax?` -/

theorem omapM_some_length {α β : Type} (f : α → Option β) (xs : List α) (ys : List β)
    (h : omapM f xs = some ys) : ys.length = xs.length := by
  induction xs generalizing ys with
  | nil => cases h; rfl
  | cons x t ih =>
    rw [omapM] at h
    cases hx : f x with
    | none => rw [hx] at h; cases h
    | some y =>
      rw [hx] at h
      cases ht : omapM f t with
      | none => rw [ht] at h; cases h
      | some yt =>
        rw [ht] at h
        cases h
        simp [ih yt ht]

theorem omapM_some_forall {α β : Type} (f : α → Option β) (xs : List α) (ys : List β)
    (h : omapM f xs = some ys) : ∀ x ∈ xs, ∃ y ∈ ys, f x = some y := by
  induction xs generalizing ys with
  | nil => intro x hx; cases hx
  | cons x t ih =>
    rw [omapM] at h
    cases hx : f x with
    | none => rw [hx] at h; cases h
    | some y =>
      rw [hx] at h
      cases ht : omapM f t with
      | none => rw [ht] at h; cases h
      | some yt =>
        rw [ht] at h
        cases h
        intro z hz
        rcases List.mem_cons.mp hz with hz | hz
        · exact ⟨y, List.mem_cons_self _ _, hz ▸ hx⟩
        · rcases ih yt ht z hz with ⟨w, hw, hfw⟩
          exact ⟨w, List.mem_cons_of_mem _ hw, hfw⟩

theorem omapM_some_get {α β : Type} (f : α → Option β) (xs : List α) (ys : List β)
    (h : omapM f xs = some ys) :
    ∀ k x, xs.get? k = some x → ∃ y, f x = some y ∧ ys.get? k = some y := by
  induction xs generalizing ys with
  | nil => intro k x hk; cases k <;> cases hk
  | cons x t ih =>
    rw [omapM] at h
    cases hx : f x with
    | none => rw [hx] at h; cases h
    | some y =>
      rw [hx] at h
      cases ht : omapM f t with
      | none => rw [ht] at h; cases h
      | some yt =>
        rw [ht] at h
        cases h
        intro k z hk
        cases k with
        | zero => cases hk; exact ⟨y, hx, rfl⟩
        | succ k => exact ih yt ht k z hk

theorem omapM_isSome {α β : Type} (f : α → Option β) (xs : List α)
    (h : ∀ x ∈ xs, (f x).isSome) : (omapM f xs).isSome := by
  induction xs with
  | nil => rfl
  | cons x t ih =>
    rw [omapM]
    cases hx : f x with
    | none => exact absurd (hx ▸ h x (List.mem_cons_self _ _)) (by simp)
    | some y =>
      cases ht : omapM f t with
      | none =>
        have := ih (fun z hz => h z (List.mem_cons_of_mem _ hz))
        rw [ht] at this
        cases this
      | some yt => simp

theorem le_foldl_max (xs : List Nat) (a : Nat) : a ≤ xs.foldl max a := by
  induction xs generalizing a with
  | nil => exact le_rfl
  | cons x t ih => exact le_trans (Nat.le_max_left a x) (ih (max a x))

theorem mem_le_foldl_max (xs : List Nat) : ∀ a x, x ∈ xs → x ≤ xs.foldl max a := by
  induction xs with
  | nil => intro a x hx; cases hx
  | cons y t ih =>
    intro a x hx
    rw [List.foldl_cons]
    rcases List.mem_cons.mp hx with h | h
    · subst h
      exact le_trans (Nat.le_max_right a x) (le_foldl_max t (max a x))
    · exact ih (max a y) x h

theorem listMax?_ge (l : List Nat) (m : Nat) (h : listMax? l = some m) : ∀ x ∈ l, x ≤ m := by
  cases l with
  | nil => cases h
  | cons y t =>
    cases h
    intro x hx
    rcases List.mem_cons.mp hx with h | h
    · exact h ▸ le_foldl_max t y
    · exact mem_le_foldl_max t y x h

/-- Every time entry of the symbolic cost matrix is bounded by `max_time`. -/
theorem maxTime?_spec (C : List (List (Nat × Nat))) (mt : Nat) (h : maxTime? C = some mt) :
    ∀ row ∈ C, ∀ p ∈ row, p.2 ≤ mt := by
  rw [maxTime?] at h
  cases hms : omapM (fun row => listMax? (row.map (fun p => p.2))) C with
  | none => rw [hms] at h; cases h
  | some ms =>
    rw [hms] at h
    simp only [Option.bind_eq_bind, Option.some_bind] at h
    intro row hrow p hp
    rcases omapM_some_forall _ C ms hms row hrow with ⟨m, hm, hfm⟩
    have h1 : p.2 ≤ m := listMax?_ge _ m hfm p.2 (List.mem_map_of_mem _ hp)
    have h2 : m ≤ mt := listMax?_ge ms mt h m hm
    omega

theorem sum_le_length_mul (l : List Nat) (n : Nat) (h : ∀ x ∈ l, x ≤ n) :
    l.sum ≤ l.length * n := by
  induction l with
  | nil => simp
  | cons x t ih =>
    rw [List.sum_cons, List.length_cons]
    have hx := h x (List.mem_cons_self _ _)
    have ht := ih (fun z hz => h z (List.mem_cons_of_mem _ hz))
    have : (t.length + 1) * n = t.length * n + n := by ring
    omega

/-! ### The scalar encoding and lexicographic order -/

/-- Sum of encoded costs `sym[0]*big + sym[1]` over a list of `(rank, time)` pairs. -/
def encSum (big : Nat) (L : List (Nat × Nat)) : Nat :=
  (L.map (fun p => p.1 * big + p.2)).sum

/-- Termwise sum of a list of `(rank, time)` pairs. -/
def pairSum (L : List (Nat × Nat)) : Nat × Nat :=
  ((L.map (fun p => p.1)).sum, (L.map (fun p => p.2)).sum)

/-- Strict lexicographic order on `(rank, time)` totals. -/
def lexLt (p q : Nat × Nat) : Prop := p.1 < q.1 ∨ (p.1 = q.1 ∧ p.2 < q.2)

/-- Weak lexicographic order on `(rank, time)` totals. -/
def lexLe (p q : Nat × Nat) : Prop := p.1 < q.1 ∨ (p.1 = q.1 ∧ p.2 ≤ q.2)

instance instLexLtDec (p q : Nat × Nat) : Decidable (lexLt p q) :=
  inferInstanceAs (Decidable (p.1 < q.1 ∨ (p.1 = q.1 ∧ p.2 < q.2)))

instance instLexLeDec (p q : Nat × Nat) : Decidable (lexLe p q) :=
  inferInstanceAs (Decidable (p.1 < q.1 ∨ (p.1 = q.1 ∧ p.2 ≤ q.2)))

theorem encSum_eq (big : Nat) (L : List (Nat × Nat)) :
    encSum big L = (pairSum L).1 * big + (pairSum L).2 := by
  induction L with
  | nil => simp [encSum, pairSum]
  | cons p t ih =>
    simp only [encSum, pairSum, List.map_cons, List.sum_cons] at *
    rw [ih]
    ring

theorem enc_lt_iff (big r1 t1 r2 t2 : Nat) (h1 : t1 < big) (h2 : t2 < big) :
    r1 * big + t1 < r2 * big + t2 ↔ (r1 < r2 ∨ (r1 = r2 ∧ t1 < t2)) := by
  constructor
  · intro h
    rcases Nat.lt_trichotomy r1 r2 with hr | hr | hr
    · exact Or.inl hr
    · subst hr
      exact Or.inr ⟨rfl, by omega⟩
    · exfalso
      have e : (r2 + 1) * big = r2 * big + big := by ring
      have h4 : (r2 + 1) * big ≤ r1 * big := Nat.mul_le_mul_right big hr
      omega
  · rintro (hr | ⟨rfl, ht⟩)
    · have e : (r1 + 1) * big = r1 * big + big := by ring
      have h4 : (r1 + 1) * big ≤ r2 * big := Nat.mul_le_mul_right big hr
      omega
    · omega

theorem enc_div (big r t : Nat) (h : t < big) : (r * big + t) / big = r := by
  have hb : 0 < big := by omega
  rw [Nat.mul_comm r big, Nat.mul_add_div hb, Nat.div_eq_of_lt h, Nat.add_zero]

theorem enc_mod (big r t : Nat) (h : t < big) : (r * big + t) % big = t := by
  rw [Nat.mul_comm r big, Nat.mul_add_mod]
  exact Nat.mod_eq_of_lt h

theorem enc_eq_iff (big r1 t1 r2 t2 : Nat) (h1 : t1 < big) (h2 : t2 < big) :
    r1 * big + t1 = r2 * big + t2 ↔ (r1 = r2 ∧ t1 = t2) := by
  constructor
  · intro h
    have d1 := enc_div big r1 t1 h1
    have d2 := enc_div big r2 t2 h2
    rw [h] at d1
    have hr : r1 = r2 := by omega
    subst hr
    exact ⟨rfl, by omega⟩
  · rintro ⟨rfl, rfl⟩; rfl

theorem enc_le_iff (big r1 t1 r2 t2 : Nat) (h1 : t1 < big) (h2 : t2 < big) :
    r1 * big + t1 ≤ r2 * big + t2 ↔ (r1 < r2 ∨ (r1 = r2 ∧ t1 ≤ t2)) := by
  have hlt := enc_lt_iff big r2 t2 r1 t1 h2 h1
  constructor
  · intro h
    have : ¬ (r2 * big + t2 < r1 * big + t1) := by omega
    rw [hlt] at this
    omega
  · intro h
    have : ¬ (r2 < r1 ∨ (r2 = r1 ∧ t2 < t1)) := by omega
    rw [← hlt] at this
    omega

/-! ### C2: summing encoded costs versus summing tuples -/

/-- C2 (counterexample): with two runners of pace 1/2 on two 1-mile legs every
`time(r, i)` is `int(0.5) = 0`, so `max_time = 0` and the source computes
`big = 0`.  The encoded costs of `(0,0)` and `(1,0)` — both entries of the cost
matrix — then coincide (`0*0+0 = 1*0+0`), although their tuple sums differ
lexicographically, refuting the claimed order equivalence. -/
theorem C2_counterexample :
    symbolicC [⟨"A", 1/2, [1, 2]⟩, ⟨"B", 1/2, [1, 2]⟩] ⟨[[1], [1]], []⟩ 2 =
      some [[(0, 0), (1, 0)], [(0, 0), (1, 0)]] ∧
    maxTime? [[(0, 0), (1, 0)], [(0, 0), (1, 0)]] = some 0 ∧
    ¬ (encSum (bigOf (2 * 2 * 0)) [(0, 0)] < encSum (bigOf (2 * 2 * 0)) [(1, 0)] ↔
        lexLt (pairSum [(0, 0)]) (pairSum [(1, 0)])) := by
  refine ⟨by with_unfolding_all decide, by decide, by decide⟩

/-- C2 (amended): provided `max_time ≥ 1`, for any two lists of at most `N`
`(rank, time)` pairs drawn from the cost matrix, comparing the sums of the
encoded scalars (with `big` as computed by the source) is equivalent to
comparing the termwise tuple sums lexicographically, and the rank digit of a
summed encoded cost is recovered exactly by division by `big` — accumulated
times never spill into it. -/
theorem C2_amended (runners : List Runner) (race : Race)
    (symC : List (List (Nat × Nat))) (mt : Nat)
    (hsym : symbolicC runners race runners.length = some symC)
    (hmt : maxTime? symC = some mt) (hpos : 1 ≤ mt)
    (A B : List (Nat × Nat))
    (hA : ∀ p ∈ A, ∃ row ∈ symC, p ∈ row) (hB : ∀ p ∈ B, ∃ row ∈ symC, p ∈ row)
    (hlA : A.length ≤ runners.length) (hlB : B.length ≤ runners.length) :
    (encSum (bigOf (2 * runners.length * mt)) A < encSum (bigOf (2 * runners.length * mt)) B ↔
      lexLt (pairSum A) (pairSum B)) ∧
    (encSum (bigOf (2 * runners.length * mt)) A = encSum (bigOf (2 * runners.length * mt)) B ↔
      pairSum A = pairSum B) ∧
    encSum (bigOf (2 * runners.length * mt)) A / bigOf (2 * runners.length * mt) =
      (pairSum A).1 ∧
    encSum (bigOf (2 * runners.length * mt)) A % bigOf (2 * runners.length * mt) =
      (pairSum A).2 := by
  have hN : 1 ≤ runners.length := pos_of_maxTime runners race symC mt hsym hmt
  have hM : 1 ≤ 2 * runners.length * mt := Nat.mul_pos (Nat.mul_pos (by omega) hN) hpos
  have hbig : 2 * runners.length * mt ≤ bigOf (2 * runners.length * mt) := le_bigOf _ hM
  have hbound : ∀ (L : List (Nat × Nat)), (∀ p ∈ L, ∃ row ∈ symC, p ∈ row) →
      L.length ≤ runners.length → (pairSum L).2 < bigOf (2 * runners.length * mt) := by
    intro L hL hlen
    have hple : ∀ x ∈ L.map (fun p => p.2), x ≤ mt := by
      intro x hx
      rcases List.mem_map.mp hx with ⟨p, hp, rfl⟩
      rcases hL p hp with ⟨row, hrow, hprow⟩
      exact maxTime?_spec symC mt hmt row hrow p hprow
    have h1 : (pairSum L).2 ≤ (L.map (fun p => p.2)).length * mt :=
      sum_le_length_mul _ mt hple
    rw [List.length_map] at h1
    have h2 : L.length * mt ≤ runners.length * mt := Nat.mul_le_mul_right mt hlen
    have h3 : runners.length * mt < 2 * runners.length * mt := by
      have e : 2 * runners.length * mt = 2 * (runners.length * mt) := by ring
      have hpos2 : 0 < runners.length * mt := Nat.mul_pos hN hpos
      omega
    omega
  have hTA := hbound A hA hlA
  have hTB := hbound B hB hlB
  simp only [encSum_eq]
  refine ⟨?_, ?_, ?_, ?_⟩
  · rw [enc_lt_iff _ _ _ _ _ hTA hTB]
    exact Iff.rfl
  · rw [enc_eq_iff _ _ _ _ _ hTA hTB]
    exact Prod.ext_iff.symm
  · exact enc_div _ _ _ hTA
  · exact enc_mod _ _ _ hTA

/-- C2 (amended) at a concrete input: two runners with paces 1 and 2 on legs of
1 and 2 miles (`max_time = 4`, `big = 100`), with the singleton pair lists
`[(0,1)]` and `[(1,2)]` drawn from the matrix. -/
theorem C2_witness :
    (encSum (bigOf (2 * 2 * 4)) [(0, 1)] < encSum (bigOf (2 * 2 * 4)) [(1, 2)] ↔
      lexLt (pairSum [(0, 1)]) (pairSum [(1, 2)])) ∧
    (encSum (bigOf (2 * 2 * 4)) [(0, 1)] = encSum (bigOf (2 * 2 * 4)) [(1, 2)] ↔
      pairSum [(0, 1)] = pairSum [(1, 2)]) ∧
    encSum (bigOf (2 * 2 * 4)) [(0, 1)] / bigOf (2 * 2 * 4) = (pairSum [(0, 1)]).1 ∧
    encSum (bigOf (2 * 2 * 4)) [(0, 1)] % bigOf (2 * 2 * 4) = (pairSum [(0, 1)]).2 :=
  C2_amended [⟨"A", 1, [1, 2]⟩, ⟨"B", 2, [1, 2]⟩] ⟨[[1], [2]], []⟩
    [[(0, 1), (1, 2)], [(0, 2), (1, 4)]] 4 (by with_unfolding_all decide) (by decide)
    (by decide) [(0, 1)] [(1, 2)] (by decide) (by decide) (by decide) (by decide)

/-! ### C10: empty race-group list with a nontrivial merged group -/

theorem allGroupAssignments_zero (n : Nat) : allGroupAssignments (n + 1) 0 = [] := by
  simp [allGroupAssignments]

/-- C10: if the race defines no race groups but at least one merged constraint
group of size > 1 exists (and the cost-model pipeline itself raises no
exception), the candidate enumeration is empty and `optimal_assignment`
returns `None` — even though unconstrained bijections of runners to legs may
exist. -/
theorem C10_empty_race_groups (gs : List (List String)) (rs : List Runner) (race : Race)
    (gsBig : List (List String)) (symC : List (List (Nat × Nat))) (mt : Nat)
    (hg : bigGroupsOf gs rs = some gsBig) (hne : gsBig ≠ [])
    (hrg : race.groups = [])
    (hsym : symbolicC rs race rs.length = some symC)
    (hmt : maxTime? symC = some mt) :
    allGroupAssignments gsBig.length race.groups.length = [] ∧
    optimal_assignment gs rs race = some none := by
  have hlen : race.groups.length = 0 := by rw [hrg]; rfl
  have hcands : allGroupAssignments gsBig.length race.groups.length = [] := by
    cases hgs : gsBig with
    | nil => exact absurd hgs hne
    | cons g t => rw [hlen, List.length_cons, allGroupAssignments_zero]
  refine ⟨hcands, ?_⟩
  rw [optimal_assignment]
  simp only [hg, hsym, hmt, hcands, Option.bind_eq_bind, Option.some_bind]
  rfl

/-- C10 at a concrete input: runners `A`, `B` in one constraint group, two
legs, no race groups; an unconstrained bijection exists but the result is
`None`. -/
theorem C10_witness :
    allGroupAssignments 1 (Race.mk ([[1], [1]] : List (List ℚ)) []).groups.length = [] ∧
    optimal_assignment [["A", "B"]] [⟨"A", 1, [1, 2]⟩, ⟨"B", 1, [1, 2]⟩]
      ⟨[[1], [1]], []⟩ = some none := by
  have h := C10_empty_race_groups [["A", "B"]] [⟨"A", 1, [1, 2]⟩, ⟨"B", 1, [1, 2]⟩]
    ⟨[[1], [1]], []⟩ [["A", "B"]] [[(0, 1), (1, 1)], [(0, 1), (1, 1)]] 1
    (by decide) (by decide) rfl (by with_unfolding_all decide) (by decide)
  simpa using h

/-! ### `findIdx?`, rectangular matrices, and entry updates -/

theorem get?_some_lt {α : Type} (l : List α) (n : Nat) (a : α) (h : l.get? n = some a) :
    n < l.length := by
  by_contra hc
  rw [List.get?_eq_none.mpr (by omega)] at h
  cases h

theorem findIdx?_spec {α : Type} (p : α → Bool) (l : List α) :
    ∀ s j, List.findIdx? p l s = some j →
      ∃ k, j = s + k ∧ ∃ x, l.get? k = some x ∧ p x = true := by
  induction l with
  | nil => intro s j h; cases h
  | cons x xs ih =>
    intro s j h
    rw [List.findIdx?_cons] at h
    split at h
    · cases h
      exact ⟨0, by omega, x, rfl, by assumption⟩
    · rcases ih (s + 1) j h with ⟨k, hk, y, hy, hp⟩
      exact ⟨k + 1, by omega, y, hy, hp⟩

theorem findIdx?_first {α : Type} (p : α → Bool) (l : List α) :
    ∀ s j, List.findIdx? p l s = some j →
      ∀ k x, k + s ≤ j → l.get? k = some x → p x = true → j = s + k := by
  induction l with
  | nil => intro s j h; cases h
  | cons z xs ih =>
    intro s j h k x hk hx hp
    rw [List.findIdx?_cons] at h
    split at h
    · cases h
      cases k with
      | zero => omega
      | succ k => omega
    · next hz =>
      cases k with
      | zero =>
        cases hx
        exact absurd hp hz
      | succ k =>
        have := ih (s + 1) j h k x (by omega) hx hp
        omega

theorem findIdx?_of_get {α : Type} (p : α → Bool) (l : List α) :
    ∀ s k x, l.get? k = some x → p x = true →
      ∃ j, List.findIdx? p l s = some j ∧ j ≤ s + k := by
  induction l with
  | nil => intro s k x hx; cases k <;> cases hx
  | cons z xs ih =>
    intro s k x hx hp
    rw [List.findIdx?_cons]
    split
    · exact ⟨s, rfl, by omega⟩
    · next hz =>
      cases k with
      | zero =>
        cases hx
        exact absurd hp hz
      | succ k =>
        rcases ih (s + 1) k x hx hp with ⟨j, hj, hjle⟩
        exact ⟨j, hj, by omega⟩

theorem findIdx?_nodup_aux {α : Type} [BEq α] [LawfulBEq α] (l : List α) :
    ∀ s k x, l.Nodup → l.get? k = some x →
      List.findIdx? (fun y => y == x) l s = some (s + k) := by
  induction l with
  | nil => intro s k x _ hx; cases k <;> cases hx
  | cons z xs ih =>
    intro s k x hnd hx
    rw [List.findIdx?_cons]
    cases k with
    | zero =>
      cases hx
      simp
    | succ k =>
      have hz : (z == x) = false := by
        have hmem : x ∈ xs := List.get?_mem hx
        have hzz : z ∉ xs := (List.nodup_cons.mp hnd).1
        simp only [beq_eq_false_iff_ne, ne_eq]
        intro he
        exact hzz (he ▸ hmem)
      rw [if_neg (by simp [hz])]
      rw [ih (s + 1) k x (List.nodup_cons.mp hnd).2 hx]
      congr 1
      omega

/-- On a list with no duplicates, `findIdx?` for the element at index `k`
returns exactly `k`. -/
theorem findIdx?_nodup {α : Type} [BEq α] [LawfulBEq α] (l : List α) (hnd : l.Nodup)
    (k : Nat) (x : α) (hx : l.get? k = some x) :
    List.findIdx? (fun y => y == x) l 0 = some k := by
  rw [findIdx?_nodup_aux l 0 k x hnd hx]
  simp

/-- A matrix stored as a list of rows, with `N` rows of length `N` each. -/
def Rect (C : List (List Nat)) (N : Nat) : Prop :=
  C.length = N ∧ ∀ r row, C.get? r = some row → row.length = N

theorem rect_setEntry (C : List (List Nat)) (N r i v : Nat) (h : Rect C N) :
    Rect (setEntry C r i v) N := by
  obtain ⟨hlen, hrow⟩ := h
  constructor
  · rw [setEntry, List.length_set, hlen]
  · intro j row' hj
    rw [setEntry] at hj
    by_cases hrr : r = j
    · subst hrr
      by_cases hlt : r < C.length
      · rw [List.get?_set_eq_of_lt _ hlt] at hj
        cases hj
        cases hC : C.get? r with
        | none =>
          exfalso
          rw [List.get?_eq_none] at hC
          omega
        | some row =>
          simp only [Option.getD_some, List.length_set]
          exact hrow r row hC
      · rw [List.set_eq_of_length_le (by omega)] at hj
        exact hrow r row' hj
    · rw [List.get?_set_ne _ _ hrr] at hj
      exact hrow j row' hj

theorem entry_setEntry_same (C : List (List Nat)) (N r i v : Nat) (h : Rect C N)
    (hr : r < N) (hi : i < N) : entry (setEntry C r i v) r i = v := by
  obtain ⟨hlen, hrow⟩ := h
  have hrC : r < C.length := by omega
  cases hC : C.get? r with
  | none =>
    exfalso
    rw [List.get?_eq_none] at hC
    omega
  | some row =>
    rw [entry, setEntry, List.get?_set_eq_of_lt _ hrC, hC]
    simp only [Option.getD_some]
    rw [List.get?_set_eq_of_lt _ (by rw [hrow r row hC]; omega)]
    rfl

theorem entry_setEntry_other (C : List (List Nat)) (r i v r' i' : Nat)
    (h : ¬ (r' = r ∧ i' = i)) : entry (setEntry C r i v) r' i' = entry C r' i' := by
  by_cases hrr : r' = r
  · subst hrr
    have hii : i' ≠ i := fun hh => h ⟨rfl, hh⟩
    rw [entry, setEntry, entry]
    by_cases hlt : r' < C.length
    · rw [List.get?_set_eq_of_lt _ hlt]
      cases hC : C.get? r' with
      | none =>
        exfalso
        rw [List.get?_eq_none] at hC
        omega
      | some row =>
        simp only [Option.getD_some]
        rw [List.get?_set_ne _ _ (fun hh => hii hh.symm)]
    · rw [List.set_eq_of_length_le (by omega)]
  · rw [entry, setEntry, List.get?_set_ne _ _ (fun hh => hrr hh.symm), entry]

/-! ### Characterisation of the masking loops -/

theorem findIdx?_of_mem_beq {α : Type} [BEq α] [LawfulBEq α] (l : List α) (x : α)
    (hx : x ∈ l) : ∃ j, List.findIdx? (fun y => y == x) l 0 = some j ∧ j < l.length := by
  rcases List.get?_of_mem hx with ⟨k, hk⟩
  rcases findIdx?_of_get (fun y => y == x) l 0 k x hk (by exact beq_self_eq_true x) with
    ⟨j, hj, _⟩
  rcases findIdx?_spec _ l 0 j hj with ⟨k2, hk2, y, hy, _⟩
  have := get?_some_lt l k2 y hy
  exact ⟨j, hj, by omega⟩

/-- Generic spec for a fold that conditionally writes `infv` into row `rm`. -/
theorem ofoldlM_writes (N rm infv : Nat) (hrmN : rm < N)
    (f : List (List Nat) → Nat → Option (List (List Nat)))
    (P : Nat → Prop)
    (hf : ∀ m i, (¬ P i → f m i = some m) ∧ (P i → f m i = some (setEntry m rm i infv))) :
    ∀ (is : List Nat), (∀ i0 ∈ is, i0 < N) → ∀ m, Rect m N →
      ∃ m', ofoldlM f m is = some m' ∧ Rect m' N ∧
        (∀ i, i ∈ is → P i → entry m' rm i = infv) ∧
        (∀ r i, ¬ (r = rm ∧ i ∈ is ∧ P i) → entry m' r i = entry m r i) := by
  intro is
  induction is with
  | nil =>
    intro _ m hm
    exact ⟨m, rfl, hm, fun i hi => absurd hi (List.not_mem_nil i),
      fun r i _ => rfl⟩
  | cons i0 it ih =>
    intro hlt m hm
    by_cases hP : P i0
    · have hstep : f m i0 = some (setEntry m rm i0 infv) := (hf m i0).2 hP
      have hi0N : i0 < N := hlt i0 (List.mem_cons_self _ _)
      have hm1 : Rect (setEntry m rm i0 infv) N := rect_setEntry m N rm i0 infv hm
      rcases ih (fun z hz => hlt z (List.mem_cons_of_mem _ hz)) _ hm1 with
        ⟨m', hfold, hm', hmask, hkeep⟩
      refine ⟨m', ?_, hm', ?_, ?_⟩
      · rw [ofoldlM, hstep, Option.some_bind]
        exact hfold
      · intro i hi hPi
        rcases List.mem_cons.mp hi with hi | hi
        · subst hi
          by_cases hmem : i ∈ it ∧ P i
          · exact hmask i hmem.1 hmem.2
          · rw [hkeep rm i (fun hc => hmem ⟨hc.2.1, hc.2.2⟩)]
            exact entry_setEntry_same m N rm i infv hm hrmN hi0N
        · exact hmask i hi hPi
      · intro r i hni
        have hni2 : ¬ (r = rm ∧ i ∈ it ∧ P i) := by
          intro hc
          exact hni ⟨hc.1, List.mem_cons_of_mem _ hc.2.1, hc.2.2⟩
        rw [hkeep r i hni2]
        apply entry_setEntry_other
        intro hc
        exact hni ⟨hc.1, hc.2 ▸ List.mem_cons_self _ _, hc.2 ▸ hP⟩
    · have hstep : f m i0 = some m := (hf m i0).1 hP
      rcases ih (fun z hz => hlt z (List.mem_cons_of_mem _ hz)) m hm with
        ⟨m', hfold, hm', hmask, hkeep⟩
      refine ⟨m', ?_, hm', ?_, ?_⟩
      · rw [ofoldlM, hstep, Option.some_bind]
        exact hfold
      · intro i hi hPi
        rcases List.mem_cons.mp hi with hi | hi
        · exact absurd (hi ▸ hPi) hP
        · exact hmask i hi hPi
      · intro r i hni
        apply hkeep
        intro hc
        exact hni ⟨hc.1, List.mem_cons_of_mem _ hc.2.1, hc.2.2⟩

theorem maskMem_spec (N : Nat) (ok : List Nat) (names : List String) (infv : Nat)
    (mem : String) (rm : Nat)
    (hrm : List.findIdx? (fun nm => nm == mem) names 0 = some rm) (hrmN : rm < N)
    (m : List (List Nat)) (hrect : Rect m N) :
    ∃ m', maskMem N ok names infv m mem = some m' ∧ Rect m' N ∧
      (∀ i, i < N → ok.contains (i + 1) = false → entry m' rm i = infv) ∧
      (∀ r i, ¬ (r = rm ∧ i < N ∧ ok.contains (i + 1) = false) →
        entry m' r i = entry m r i) := by
  have hw := ofoldlM_writes N rm infv hrmN
    (fun m i =>
      if ok.contains (i + 1) then some m
      else (List.findIdx? (fun nm => nm == mem) names 0).bind
        (fun r => some (setEntry m r i infv)))
    (fun i => ok.contains (i + 1) = false)
    (fun m i => by
      constructor
      · intro hnp
        have hc : ok.contains (i + 1) = true := by
          cases hcc : ok.contains (i + 1)
          · exact absurd hcc hnp
          · rfl
        simp only [hc]
        rfl
      · intro hp
        simp only [hp]
        rw [if_neg (by simp), hrm, Option.some_bind])
    (List.range N) (fun i0 hi0 => List.mem_range.mp hi0) m hrect
  rcases hw with ⟨m', hfold, hm', hmask, hkeep⟩
  refine ⟨m', ?_, hm', ?_, ?_⟩
  · rw [maskMem]
    exact hfold
  · intro i hi hc
    exact hmask i (List.mem_range.mpr hi) hc
  · intro r i hni
    apply hkeep
    intro hc
    exact hni ⟨hc.1, List.mem_range.mp hc.2.1, hc.2.2⟩

theorem maskGroup_spec (N : Nat) (ok : List Nat) (names : List String) (infv : Nat)
    (hnames : names.length = N) :
    ∀ (g : List String), (∀ mem ∈ g, mem ∈ names) → ∀ m, Rect m N →
      ∃ m', ofoldlM (fun m mem => maskMem N ok names infv m mem) m g = some m' ∧ Rect m' N ∧
        (∀ r i mem, mem ∈ g → List.findIdx? (fun nm => nm == mem) names 0 = some r →
          i < N → ok.contains (i + 1) = false → entry m' r i = infv) ∧
        (∀ r i, ¬ ((∃ mem ∈ g, List.findIdx? (fun nm => nm == mem) names 0 = some r) ∧
            i < N ∧ ok.contains (i + 1) = false) → entry m' r i = entry m r i) := by
  intro g
  induction g with
  | nil =>
    intro _ m hm
    exact ⟨m, rfl, hm, fun r i mem hmem => absurd hmem (List.not_mem_nil mem),
      fun r i _ => rfl⟩
  | cons mem0 gt ih =>
    intro hmem m hm
    rcases findIdx?_of_mem_beq names mem0 (hmem mem0 (List.mem_cons_self _ _)) with
      ⟨rm0, hrm0, hrm0len⟩
    have hrm0N : rm0 < N := by omega
    rcases maskMem_spec N ok names infv mem0 rm0 hrm0 hrm0N m hm with
      ⟨m1, hstep, hm1, hmask1, hkeep1⟩
    rcases ih (fun z hz => hmem z (List.mem_cons_of_mem _ hz)) m1 hm1 with
      ⟨m', hfold, hm', hmask, hkeep⟩
    refine ⟨m', ?_, hm', ?_, ?_⟩
    · rw [ofoldlM, hstep, Option.some_bind]
      exact hfold
    · intro r i mem hmemg hfi hiN hc
      rcases List.mem_cons.mp hmemg with hmemg | hmemg
      · subst hmemg
        have hr : r = rm0 := by rw [hrm0] at hfi; exact (Option.some_injective _ hfi).symm
        subst hr
        by_cases h2 : (∃ z ∈ gt, List.findIdx? (fun nm => nm == z) names 0 = some r) ∧
            i < N ∧ ok.contains (i + 1) = false
        · rcases h2.1 with ⟨z, hz, hfz⟩
          exact hmask r i z hz hfz h2.2.1 h2.2.2
        · rw [hkeep r i h2]
          exact hmask1 i hiN hc
      · exact hmask r i mem hmemg hfi hiN hc
    · intro r i hni
      have hni2 : ¬ ((∃ z ∈ gt, List.findIdx? (fun nm => nm == z) names 0 = some r) ∧
          i < N ∧ ok.contains (i + 1) = false) := by
        intro hc
        rcases hc.1 with ⟨z, hz, hfz⟩
        exact hni ⟨⟨z, List.mem_cons_of_mem _ hz, hfz⟩, hc.2.1, hc.2.2⟩
      rw [hkeep r i hni2]
      apply hkeep1
      intro hc
      exact hni ⟨⟨mem0, List.mem_cons_self _ _, hc.1 ▸ hrm0⟩, hc.2.1, hc.2.2⟩

/-- Entry `(r, i)` is set to `inf` during masking for candidate `p`, when the
group list is indexed starting at `j` (as in `enumerate`). -/
def maskedFrom (rgs : List (List Nat)) (p : List Nat) (names : List String) (N : Nat)
    (j : Nat) (l : List (List String)) (r i : Nat) : Prop :=
  ∃ ig g pi ok, l.get? ig = some g ∧ p.get? (j + ig) = some pi ∧ rgs.get? pi = some ok ∧
    (∃ mem ∈ g, List.findIdx? (fun nm => nm == mem) names 0 = some r) ∧ i < N ∧
    ok.contains (i + 1) = false

/-- Entry `(r, i)` is masked to `inf` for candidate `p`: some merged group
containing the runner of row `r` is mapped to a race group not containing the
1-based leg index `i + 1`. -/
def maskedAt (gsBig : List (List String)) (rgs : List (List Nat)) (p : List Nat)
    (names : List String) (N r i : Nat) : Prop :=
  maskedFrom rgs p names N 0 gsBig r i

theorem maskedAt_iff (gsBig : List (List String)) (rgs : List (List Nat)) (p : List Nat)
    (names : List String) (N r i : Nat) :
    maskedAt gsBig rgs p names N r i ↔
    ∃ ig g pi ok, gsBig.get? ig = some g ∧ p.get? ig = some pi ∧ rgs.get? pi = some ok ∧
      (∃ mem ∈ g, List.findIdx? (fun nm => nm == mem) names 0 = some r) ∧ i < N ∧
      ok.contains (i + 1) = false := by
  unfold maskedAt maskedFrom
  constructor <;>
    rintro ⟨ig, g, pi, ok, h1, h2, h3, h4, h5, h6⟩ <;>
    exact ⟨ig, g, pi, ok, h1, by simpa using h2, h3, h4, h5, h6⟩

theorem applyMask_aux (infv : Nat) (rgs : List (List Nat)) (p : List Nat)
    (names : List String) (N : Nat) :
    ∀ (l : List (List String)) (j : Nat) (m : List (List Nat)), Rect m N →
      (∀ ig, ig < l.length → ∃ pi ok, p.get? (j + ig) = some pi ∧ rgs.get? pi = some ok) →
      (∀ g ∈ l, ∀ mem ∈ g, mem ∈ names) → names.length = N →
      ∃ m', ofoldlM (fun m igg => do
          let pi ← p.get? igg.1
          let ok ← rgs.get? pi
          ofoldlM (fun m mem => maskMem N ok names infv m mem) m igg.2) m (List.enumFrom j l)
        = some m' ∧ Rect m' N ∧
        (∀ r i, maskedFrom rgs p names N j l r i → entry m' r i = infv) ∧
        (∀ r i, ¬ maskedFrom rgs p names N j l r i → entry m' r i = entry m r i) := by
  intro l
  induction l with
  | nil =>
    intro j m hm _ _ _
    refine ⟨m, rfl, hm, ?_, fun r i _ => rfl⟩
    rintro r i ⟨ig, g, pi, ok, hg, _⟩
    cases ig <;> cases hg
  | cons g0 rest ih =>
    intro j m hm hok hmem hnames
    rcases hok 0 (by simp) with ⟨pi0, ok0, hpi0, hok0⟩
    rw [Nat.add_zero] at hpi0
    rcases maskGroup_spec N ok0 names infv hnames g0
        (hmem g0 (List.mem_cons_self _ _)) m hm with ⟨m1, hg0, hm1, hmask1, hkeep1⟩
    have hok' : ∀ ig, ig < rest.length →
        ∃ pi ok, p.get? (j + 1 + ig) = some pi ∧ rgs.get? pi = some ok := by
      intro ig hig
      rcases hok (ig + 1) (by simpa using Nat.succ_lt_succ hig) with ⟨pi, ok, h1, h2⟩
      refine ⟨pi, ok, ?_, h2⟩
      rw [show j + 1 + ig = j + (ig + 1) from by omega]
      exact h1
    rcases ih (j + 1) m1 hm1 hok' (fun g hg => hmem g (List.mem_cons_of_mem _ hg)) hnames with
      ⟨m', hfold, hm', hmask, hkeep⟩
    have hstep : ofoldlM (fun m igg => do
        let pi ← p.get? igg.1
        let ok ← rgs.get? pi
        ofoldlM (fun m mem => maskMem N ok names infv m mem) m igg.2) m
          (List.enumFrom j (g0 :: rest)) = ofoldlM (fun m igg => do
        let pi ← p.get? igg.1
        let ok ← rgs.get? pi
        ofoldlM (fun m mem => maskMem N ok names infv m mem) m igg.2) m1
          (List.enumFrom (j + 1) rest) := by
      show ofoldlM _ m ((j, g0) :: List.enumFrom (j + 1) rest) = _
      rw [ofoldlM]
      simp only [hpi0, hok0, Option.bind_eq_bind, Option.some_bind, hg0]
    refine ⟨m', hstep.trans hfold, hm', ?_, ?_⟩
    · rintro r i ⟨ig, g, pi, ok, hg, hp', hok2, hmem2, hiN, hc⟩
      cases ig with
      | zero =>
        cases hg
        rw [Nat.add_zero] at hp'
        rw [hpi0] at hp'
        cases hp'
        rw [hok0] at hok2
        cases hok2
        rcases hmem2 with ⟨mem, hmemg, hfi⟩
        by_cases h2 : maskedFrom rgs p names N (j + 1) rest r i
        · exact hmask r i h2
        · rw [hkeep r i h2]
          exact hmask1 r i mem hmemg hfi hiN hc
      | succ k =>
        have : maskedFrom rgs p names N (j + 1) rest r i := by
          refine ⟨k, g, pi, ok, hg, ?_, hok2, hmem2, hiN, hc⟩
          rw [show j + 1 + k = j + (k + 1) from by omega]
          exact hp'
        exact hmask r i this
    · intro r i hn
      have hn1 : ¬ maskedFrom rgs p names N (j + 1) rest r i := by
        rintro ⟨ig, g, pi, ok, hg, hp', hok2, hmem2, hiN, hc⟩
        refine hn ⟨ig + 1, g, pi, ok, hg, ?_, hok2, hmem2, hiN, hc⟩
        rw [show j + (ig + 1) = j + 1 + ig from by omega]
        exact hp'
      rw [hkeep r i hn1]
      apply hkeep1
      rintro ⟨hex, hiN, hc⟩
      exact hn ⟨0, g0, pi0, ok0, rfl, by simpa using hpi0, hok0, hex, hiN, hc⟩

theorem applyMask_spec (C : List (List Nat)) (infv : Nat) (gsBig : List (List String))
    (rgs : List (List Nat)) (p : List Nat) (names : List String) (N : Nat)
    (hrect : Rect C N) (hnames : names.length = N)
    (hok : ∀ ig, ig < gsBig.length → ∃ pi ok, p.get? ig = some pi ∧ rgs.get? pi = some ok)
    (hmem : ∀ g ∈ gsBig, ∀ mem ∈ g, mem ∈ names) :
    ∃ cm, applyMask C infv gsBig rgs p names N = some cm ∧ Rect cm N ∧
      (∀ r i, maskedAt gsBig rgs p names N r i → entry cm r i = infv) ∧
      (∀ r i, ¬ maskedAt gsBig rgs p names N r i → entry cm r i = entry C r i) := by
  have h := applyMask_aux infv rgs p names N gsBig 0 C hrect
    (fun ig hig => by
      rcases hok ig hig with ⟨pi, ok, h1, h2⟩
      exact ⟨pi, ok, by simpa using h1, h2⟩)
    hmem hnames
  rcases h with ⟨cm, hfold, hcm, hmask, hkeep⟩
  exact ⟨cm, hfold, hcm, hmask, hkeep⟩

/-! ### Permutations and the exact assignment solver -/

theorem perm_of_mem_insertions (x : Nat) :
    ∀ (l σ : List Nat), σ ∈ insertions x l → σ.Perm (x :: l) := by
  intro l
  induction l with
  | nil =>
    intro σ hσ
    rcases List.mem_singleton.mp hσ with rfl
    exact List.Perm.refl _
  | cons y ys ih =>
    intro σ hσ
    rw [insertions] at hσ
    rcases List.mem_cons.mp hσ with rfl | hσ
    · exact List.Perm.refl _
    · rcases List.mem_map.mp hσ with ⟨τ, hτ, rfl⟩
      exact (List.Perm.cons y (ih τ hτ)).trans (List.Perm.swap x y ys)

theorem insertions_mem (x : Nat) :
    ∀ (l1 l2 : List Nat), (l1 ++ x :: l2) ∈ insertions x (l1 ++ l2) := by
  intro l1
  induction l1 with
  | nil =>
    intro l2
    cases l2 with
    | nil => simp [insertions]
    | cons y ys => simp [insertions]
  | cons a t ih =>
    intro l2
    rw [List.cons_append, List.cons_append, insertions]
    exact List.mem_cons_of_mem _ (List.mem_map_of_mem _ (ih l2))

theorem mem_perms_of_perm : ∀ (l σ : List Nat), σ.Perm l → σ ∈ perms l := by
  intro l
  induction l with
  | nil =>
    intro σ h
    rw [List.perm_nil.mp h]
    simp [perms]
  | cons x xs ih =>
    intro σ h
    have hx : x ∈ σ := h.mem_iff.mpr (List.mem_cons_self _ _)
    rcases List.append_of_mem hx with ⟨l1, l2, rfl⟩
    have h2 : (l1 ++ l2).Perm xs := by
      have hmid : (l1 ++ x :: l2).Perm (x :: (l1 ++ l2)) := List.perm_middle
      exact (hmid.symm.trans h).cons_inv
    rw [perms]
    exact List.mem_flatMap.mpr ⟨l1 ++ l2, ih _ h2, insertions_mem x l1 l2⟩

theorem perm_of_mem_perms : ∀ (l σ : List Nat), σ ∈ perms l → σ.Perm l := by
  intro l
  induction l with
  | nil =>
    intro σ h
    rcases List.mem_singleton.mp h with rfl
    exact List.Perm.refl _
  | cons x xs ih =>
    intro σ h
    rw [perms] at h
    rcases List.mem_flatMap.mp h with ⟨τ, hτ, hστ⟩
    exact (perm_of_mem_insertions x τ σ hστ).trans (List.Perm.cons x (ih τ hτ))

theorem foldl_argmin_le (C : List (List Nat)) :
    ∀ (l : List (List Nat)) (acc : List Nat),
      permCost C (l.foldl (fun best σ => if permCost C σ < permCost C best then σ else best)
          acc) ≤ permCost C acc ∧
      ∀ τ ∈ l, permCost C (l.foldl
          (fun best σ => if permCost C σ < permCost C best then σ else best) acc) ≤
        permCost C τ := by
  intro l
  induction l with
  | nil => exact fun acc => ⟨le_rfl, fun τ hτ => absurd hτ (List.not_mem_nil τ)⟩
  | cons σ0 t ih =>
    intro acc
    rw [List.foldl_cons]
    by_cases h : permCost C σ0 < permCost C acc
    · rw [if_pos h]
      refine ⟨le_trans (ih σ0).1 (by omega), ?_⟩
      intro τ hτ
      rcases List.mem_cons.mp hτ with rfl | hτ
      · exact (ih τ).1
      · exact (ih σ0).2 τ hτ
    · rw [if_neg h]
      refine ⟨(ih acc).1, ?_⟩
      intro τ hτ
      rcases List.mem_cons.mp hτ with rfl | hτ
      · exact le_trans (ih acc).1 (by omega)
      · exact (ih acc).2 τ hτ

theorem foldl_argmin_mem (C : List (List Nat)) :
    ∀ (l : List (List Nat)) (acc : List Nat),
      (l.foldl (fun best σ => if permCost C σ < permCost C best then σ else best) acc) = acc ∨
      (l.foldl (fun best σ => if permCost C σ < permCost C best then σ else best) acc) ∈ l := by
  intro l
  induction l with
  | nil => exact fun acc => Or.inl rfl
  | cons σ0 t ih =>
    intro acc
    rw [List.foldl_cons]
    by_cases h : permCost C σ0 < permCost C acc
    · rw [if_pos h]
      rcases ih σ0 with h2 | h2
      · exact Or.inr (by rw [h2]; exact List.mem_cons_self _ _)
      · exact Or.inr (List.mem_cons_of_mem _ h2)
    · rw [if_neg h]
      rcases ih acc with h2 | h2
      · exact Or.inl h2
      · exact Or.inr (List.mem_cons_of_mem _ h2)

/-- The solver model returns a permutation of the rows. -/
theorem minPerm_perm (C : List (List Nat)) (N : Nat) : (minPerm C N).Perm (List.range N) := by
  rw [minPerm]
  rcases foldl_argmin_mem C (perms (List.range N)) (List.range N) with h | h
  · rw [h]
  · exact perm_of_mem_perms _ _ h

/-- The solver model is exact: no permutation has a cheaper total. -/
theorem minPerm_le (C : List (List Nat)) (N : Nat) (σ : List Nat)
    (hσ : σ.Perm (List.range N)) : permCost C (minPerm C N) ≤ permCost C σ := by
  rw [minPerm]
  exact (foldl_argmin_le C (perms (List.range N)) (List.range N)).2 σ
    (mem_perms_of_perm _ σ hσ)

/-! ### The candidate enumeration and the encoded cost matrix -/

theorem mem_allGroupAssignments (k : Nat) : ∀ (n : Nat) (p : List Nat),
    p ∈ allGroupAssignments n k ↔ p.length = n ∧ ∀ j ∈ p, j < k := by
  intro n
  induction n with
  | zero =>
    intro p
    rw [allGroupAssignments]
    simp only [List.mem_singleton]
    constructor
    · rintro rfl
      exact ⟨rfl, fun j hj => absurd hj (List.not_mem_nil j)⟩
    · rintro ⟨hlen, _⟩
      exact List.length_eq_zero.mp hlen
  | succ n ih =>
    intro p
    rw [allGroupAssignments, List.mem_flatMap]
    constructor
    · rintro ⟨e, he, hp⟩
      rcases List.mem_map.mp hp with ⟨i, hi, rfl⟩
      rcases (ih e).mp he with ⟨hlen, hj⟩
      refine ⟨by simp [hlen], ?_⟩
      intro j hj2
      rcases List.mem_cons.mp hj2 with rfl | hj2
      · exact List.mem_range.mp hi
      · exact hj j hj2
    · rintro ⟨hlen, hj⟩
      cases p with
      | nil => cases hlen
      | cons i e =>
        refine ⟨e, (ih e).mpr ⟨by simpa using hlen,
          fun j hj2 => hj j (List.mem_cons_of_mem _ hj2)⟩, ?_⟩
        exact List.mem_map.mpr ⟨i, List.mem_range.mpr (hj i (List.mem_cons_self _ _)), rfl⟩

theorem cell_some (rs : List Runner) (race : Race) (r i : Nat) (y : Nat × Nat) :
    (do
      let rk ← rank? rs r i
      let t ← time? rs race r i
      return (rk, t)) = some y ↔
    ∃ rk t, rank? rs r i = some rk ∧ time? rs race r i = some t ∧ y = (rk, t) := by
  cases h1 : rank? rs r i <;> cases h2 : time? rs race r i <;>
    simp [h1, h2, eq_comm]

theorem symbolicC_spec (rs : List Runner) (race : Race) (N : Nat)
    (symC : List (List (Nat × Nat))) (hsym : symbolicC rs race N = some symC) :
    symC.length = N ∧
    (∀ r row, symC.get? r = some row → row.length = N) ∧
    (∀ r i, r < N → i < N → ∃ rk t row, rank? rs r i = some rk ∧
      time? rs race r i = some t ∧ symC.get? r = some row ∧ row.get? i = some (rk, t)) := by
  rw [symbolicC] at hsym
  have hlen : symC.length = N := by
    rw [omapM_some_length _ _ _ hsym, List.length_range]
  have hrowf : ∀ r row, symC.get? r = some row →
      omapM (fun i => (do
        let rk ← rank? rs r i
        let t ← time? rs race r i
        return (rk, t))) (List.range N) = some row := by
    intro r row hrow
    have hr : r < N := by
      have := get?_some_lt symC r row hrow
      omega
    rcases omapM_some_get _ _ _ hsym r r (List.get?_range hr) with ⟨row2, hf, hget⟩
    rw [hrow] at hget
    cases hget
    exact hf
  refine ⟨hlen, ?_, ?_⟩
  · intro r row hrow
    rw [omapM_some_length _ _ _ (hrowf r row hrow), List.length_range]
  · intro r i hr hi
    have hrget : ∃ row, symC.get? r = some row := by
      cases hg : symC.get? r with
      | none =>
        rw [List.get?_eq_none] at hg
        omega
      | some row => exact ⟨row, rfl⟩
    rcases hrget with ⟨row, hrow⟩
    rcases omapM_some_get _ _ _ (hrowf r row hrow) i i (List.get?_range hi) with
      ⟨y, hy, hgety⟩
    rcases (cell_some rs race r i y).mp hy with ⟨rk, t, h1, h2, rfl⟩
    exact ⟨rk, t, row, h1, h2, hrow, hgety⟩

theorem encMatrix_rect (symC : List (List (Nat × Nat))) (N big : Nat)
    (h1 : symC.length = N) (h2 : ∀ r row, symC.get? r = some row → row.length = N) :
    Rect (encMatrix symC big) N := by
  constructor
  · rw [encMatrix, List.length_map, h1]
  · intro r row' hrow'
    rw [encMatrix, List.get?_map] at hrow'
    cases hg : symC.get? r with
    | none => rw [hg] at hrow'; cases hrow'
    | some row =>
      rw [hg] at hrow'
      cases hrow'
      rw [List.length_map]
      exact h2 r row hg

theorem entry_encMatrix (symC : List (List (Nat × Nat))) (big r i rk t : Nat)
    (row : List (Nat × Nat)) (hrow : symC.get? r = some row)
    (hcell : row.get? i = some (rk, t)) :
    entry (encMatrix symC big) r i = rk * big + t := by
  rw [entry, encMatrix, List.get?_map, hrow]
  simp only [Option.map_some', Option.getD_some]
  rw [List.get?_map, hcell]
  rfl

/-! ### The result selector -/

theorem selStep_inv (C : List (List Nat)) (infv : Nat) (gsBig : List (List String))
    (rgs : List (List Nat)) (names : List String) (N : Nat)
    (acc : Option (List String) × Nat) (p : List Nat) (res : Option (List String) × Nat)
    (h : selStep C infv gsBig rgs names N acc p = some res) :
    ∃ cm, applyMask C infv gsBig rgs p names N = some cm ∧
      ((permCost cm (minPerm cm N) < infv ∧ permCost cm (minPerm cm N) < acc.2 ∧
        res = (some (assignmentOf names (minPerm cm N) N), permCost cm (minPerm cm N))) ∨
       (¬ (permCost cm (minPerm cm N) < infv ∧ permCost cm (minPerm cm N) < acc.2) ∧
        res = acc)) := by
  rw [selStep] at h
  cases hcm : applyMask C infv gsBig rgs p names N with
  | none => rw [hcm] at h; cases h
  | some cm =>
    rw [hcm] at h
    simp only [Option.bind_eq_bind, Option.some_bind] at h
    refine ⟨cm, rfl, ?_⟩
    by_cases hc : permCost cm (minPerm cm N) < infv ∧ permCost cm (minPerm cm N) < acc.2
    · left
      rw [if_pos hc] at h
      exact ⟨hc.1, hc.2, (Option.some_injective _ h).symm⟩
    · right
      rw [if_neg hc] at h
      exact ⟨hc, (Option.some_injective _ h).symm⟩

theorem sel_fold_min (C : List (List Nat)) (infv : Nat) (gsBig : List (List String))
    (rgs : List (List Nat)) (names : List String) (N : Nat) :
    ∀ (l : List (List Nat)) (acc res : Option (List String) × Nat),
      ofoldlM (selStep C infv gsBig rgs names N) acc l = some res →
      res.2 ≤ acc.2 ∧
      ∀ p ∈ l, ∀ cm, applyMask C infv gsBig rgs p names N = some cm →
        permCost cm (minPerm cm N) < infv → res.2 ≤ permCost cm (minPerm cm N) := by
  intro l
  induction l with
  | nil =>
    intro acc res h
    cases h
    exact ⟨le_rfl, fun p hp => absurd hp (List.not_mem_nil p)⟩
  | cons p0 t ih =>
    intro acc res h
    rw [ofoldlM] at h
    cases hstep : selStep C infv gsBig rgs names N acc p0 with
    | none => rw [hstep] at h; cases h
    | some acc1 =>
      rw [hstep, Option.some_bind] at h
      rcases selStep_inv C infv gsBig rgs names N acc p0 acc1 hstep with
        ⟨cm0, hcm0, hcase⟩
      rcases ih acc1 res h with ⟨hle, hall⟩
      rcases hcase with ⟨hlt1, hlt2, heq⟩ | ⟨hnc, heq⟩
      · subst heq
        refine ⟨by simp at hle; omega, ?_⟩
        intro p hp cm hcm hclt
        rcases List.mem_cons.mp hp with rfl | hp
        · rw [hcm0] at hcm
          cases hcm
          simpa using hle
        · exact hall p hp cm hcm hclt
      · rw [heq] at hle
        refine ⟨hle, ?_⟩
        intro p hp cm hcm hclt
        rcases List.mem_cons.mp hp with rfl | hp
        · rw [hcm0] at hcm
          cases hcm
          have : acc.2 ≤ permCost cm0 (minPerm cm0 N) := by
            by_cases h2 : permCost cm0 (minPerm cm0 N) < acc.2
            · exact absurd ⟨hclt, h2⟩ hnc
            · omega
          omega
        · exact hall p hp cm hcm hclt

theorem sel_fold_provenance (C : List (List Nat)) (infv : Nat) (gsBig : List (List String))
    (rgs : List (List Nat)) (names : List String) (N : Nat) :
    ∀ (l : List (List Nat)) (acc res : Option (List String) × Nat),
      ofoldlM (selStep C infv gsBig rgs names N) acc l = some res →
      res = acc ∨ ∃ p ∈ l, ∃ cm, applyMask C infv gsBig rgs p names N = some cm ∧
        res.1 = some (assignmentOf names (minPerm cm N) N) ∧
        res.2 = permCost cm (minPerm cm N) ∧ permCost cm (minPerm cm N) < infv := by
  intro l
  induction l with
  | nil =>
    intro acc res h
    cases h
    exact Or.inl rfl
  | cons p0 t ih =>
    intro acc res h
    rw [ofoldlM] at h
    cases hstep : selStep C infv gsBig rgs names N acc p0 with
    | none => rw [hstep] at h; cases h
    | some acc1 =>
      rw [hstep, Option.some_bind] at h
      rcases selStep_inv C infv gsBig rgs names N acc p0 acc1 hstep with
        ⟨cm0, hcm0, hcase⟩
      rcases ih acc1 res h with rfl | ⟨p, hp, cm, hcm, h1, h2, h3⟩
      · rcases hcase with ⟨hlt1, hlt2, heq⟩ | ⟨hnc, heq⟩
        · subst heq
          exact Or.inr ⟨p0, List.mem_cons_self _ _, cm0, hcm0, rfl, rfl, hlt1⟩
        · exact Or.inl heq
      · exact Or.inr ⟨p, List.mem_cons_of_mem _ hp, cm, hcm, h1, h2, h3⟩

/-- Inversion of a non-exceptional run of `optimal_assignment`. -/
theorem optimal_assignment_inv (gs : List (List String)) (rs : List Runner) (race : Race)
    (res : Option (List String))
    (h : optimal_assignment gs rs race = some res) :
    ∃ gsBig symC mt fres,
      bigGroupsOf gs rs = some gsBig ∧
      symbolicC rs race rs.length = some symC ∧
      maxTime? symC = some mt ∧
      ofoldlM (selStep (encMatrix symC (bigOf (2 * rs.length * mt)))
          (2 * rs.length * rs.length * bigOf (2 * rs.length * mt)) gsBig race.groups
          (namesOf rs) rs.length)
        (none, 2 * rs.length * rs.length * bigOf (2 * rs.length * mt))
        (allGroupAssignments gsBig.length race.groups.length) = some fres ∧
      res = fres.1 := by
  rw [optimal_assignment] at h
  cases h1 : bigGroupsOf gs rs with
  | none => rw [h1] at h; cases h
  | some gsBig =>
    rw [h1] at h
    simp only [Option.bind_eq_bind, Option.some_bind] at h
    cases h2 : symbolicC rs race rs.length with
    | none => rw [h2] at h; cases h
    | some symC =>
      rw [h2] at h
      simp only [Option.some_bind] at h
      cases h3 : maxTime? symC with
      | none => rw [h3] at h; cases h
      | some mt =>
        rw [h3] at h
        simp only [Option.some_bind] at h
        cases h4 : ofoldlM (selStep (encMatrix symC (bigOf (2 * rs.length * mt)))
            (2 * rs.length * rs.length * bigOf (2 * rs.length * mt)) gsBig race.groups
            (namesOf rs) rs.length)
          (none, 2 * rs.length * rs.length * bigOf (2 * rs.length * mt))
          (allGroupAssignments gsBig.length race.groups.length) with
        | none => rw [h4] at h; cases h
        | some fres =>
          rw [h4] at h
          simp only [Option.some_bind] at h
          exact ⟨gsBig, symC, mt, fres, rfl, rfl, h3, h4,
            (Option.some_injective _ h).symm⟩

/-! ### Invariants of the disjoint-set pipeline -/

theorem omapM_some_rev {α β : Type} (f : α → Option β) (xs : List α) (ys : List β)
    (h : omapM f xs = some ys) : ∀ y ∈ ys, ∃ x ∈ xs, f x = some y := by
  induction xs generalizing ys with
  | nil => cases h; intro y hy; cases hy
  | cons x t ih =>
    rw [omapM] at h
    cases hx : f x with
    | none => rw [hx] at h; cases h
    | some y0 =>
      rw [hx] at h
      cases ht : omapM f t with
      | none => rw [ht] at h; cases h
      | some yt =>
        rw [ht] at h
        cases h
        intro y hy
        rcases List.mem_cons.mp hy with rfl | hy
        · exact ⟨x, List.mem_cons_self _ _, hx⟩
        · rcases ih yt ht y hy with ⟨z, hz, hfz⟩
          exact ⟨z, List.mem_cons_of_mem _ hz, hfz⟩

theorem mem_aupsert {β : Type} (k : String) (v : β) :
    ∀ (m : List (String × β)) (q : String × β), q ∈ aupsert m k v → q = (k, v) ∨ q ∈ m := by
  intro m
  induction m with
  | nil =>
    intro q hq
    rcases List.mem_singleton.mp hq with rfl
    exact Or.inl rfl
  | cons p t ih =>
    intro q hq
    rw [aupsert] at hq
    split at hq
    · rcases List.mem_cons.mp hq with rfl | hq
      · exact Or.inl rfl
      · exact Or.inr (List.mem_cons_of_mem _ hq)
    · rcases List.mem_cons.mp hq with rfl | hq
      · exact Or.inr (List.mem_cons_self _ _)
      · rcases ih q hq with h | h
        · exact Or.inl h
        · exact Or.inr (List.mem_cons_of_mem _ h)

theorem self_mem_aupsert {β : Type} (k : String) (v : β) :
    ∀ (m : List (String × β)), (k, v) ∈ aupsert m k v := by
  intro m
  induction m with
  | nil => exact List.mem_singleton.mpr rfl
  | cons p t ih =>
    rw [aupsert]
    split
    · exact List.mem_cons_self _ _
    · exact List.mem_cons_of_mem _ ih

theorem keys_aupsert {β : Type} (k : String) (v : β) :
    ∀ (m : List (String × β)) (q : String × β), q ∈ m →
      ∃ q2 ∈ aupsert m k v, q2.1 = q.1 := by
  intro m
  induction m with
  | nil => intro q hq; cases hq
  | cons p t ih =>
    intro q hq
    rw [aupsert]
    split
    · next hpk =>
      have hpk2 : p.1 = k := by simpa using hpk
      rcases List.mem_cons.mp hq with rfl | hq
      · exact ⟨(k, v), List.mem_cons_self _ _, hpk2.symm⟩
      · exact ⟨q, List.mem_cons_of_mem _ hq, rfl⟩
    · rcases List.mem_cons.mp hq with rfl | hq
      · exact ⟨q, List.mem_cons_self _ _, rfl⟩
      · rcases ih q hq with ⟨q2, hq2, he⟩
        exact ⟨q2, List.mem_cons_of_mem _ hq2, he⟩

theorem alookup_mem {β : Type} (m : List (String × β)) (k : String) (v : β)
    (h : alookup m k = some v) : (k, v) ∈ m := by
  rw [alookup] at h
  cases hf : m.find? (fun p => p.1 == k) with
  | none => rw [hf] at h; cases h
  | some q =>
    rw [hf] at h
    cases h
    have hq : q ∈ m := List.mem_of_find?_eq_some hf
    have hk : q.1 = k := by simpa using List.find?_some hf
    have : q = (k, q.2) := by
      cases q
      simp only at hk
      rw [hk]
    rw [← this]
    exact hq

theorem listUnion_nodup (ga gb : List String) (h1 : ga.Nodup) (h2 : gb.Nodup) :
    (listUnion ga gb).Nodup := by
  rw [listUnion]
  refine List.Nodup.append h1 (h2.filter _) ?_
  intro x hx hx2
  rcases List.mem_filter.mp hx2 with ⟨_, hpred⟩
  simp only [Bool.not_eq_true', List.contains_eq_any_beq, List.any_eq_false] at hpred
  exact hpred x hx (by simp)

theorem mem_foldl_aupsert (la : String) :
    ∀ (l : List String) (m : List (String × String)) (e : String × String),
      e ∈ l.foldl (fun m x => aupsert m x la) m → (∃ x ∈ l, e = (x, la)) ∨ e ∈ m := by
  intro l
  induction l with
  | nil => exact fun m e he => Or.inr he
  | cons x0 t ih =>
    intro m e he
    rw [List.foldl_cons] at he
    rcases ih _ e he with ⟨x, hx, rfl⟩ | he2
    · exact Or.inl ⟨x, List.mem_cons_of_mem _ hx, rfl⟩
    · rcases mem_aupsert x0 la m e he2 with rfl | he3
      · exact Or.inl ⟨x0, List.mem_cons_self _ _, rfl⟩
      · exact Or.inr he3

theorem keys_foldl_aupsert (la : String) :
    ∀ (l : List String) (m : List (String × String)) (q : String × String), q ∈ m →
      ∃ q2 ∈ l.foldl (fun m x => aupsert m x la) m, q2.1 = q.1 := by
  intro l
  induction l with
  | nil => exact fun m q hq => ⟨q, hq, rfl⟩
  | cons x0 t ih =>
    intro m q hq
    rw [List.foldl_cons]
    rcases keys_aupsert x0 la m q hq with ⟨q1, hq1, he1⟩
    rcases ih _ q1 hq1 with ⟨q2, hq2, he2⟩
    exact ⟨q2, hq2, he2.trans he1⟩

/-- The invariant maintained by the source's disjoint set: every group list is
duplicate-free, every group member has a leader entry, and every leader key is
a runner name. -/
def dsInv (s : DisjointSet) (names : List String) : Prop :=
  (∀ q ∈ s.group, (q.2 : List String).Nodup) ∧
  (∀ q ∈ s.group, ∀ x ∈ q.2, ∃ e ∈ s.leader, e.1 = x) ∧
  (∀ e ∈ s.leader, e.1 ∈ names)

theorem dsInv_add (s : DisjointSet) (names : List String) (elem : String)
    (h : dsInv s names) (he : elem ∈ names) : dsInv (s.add elem) names := by
  rcases h with ⟨hnd, hmem, hkeys⟩
  rw [DisjointSet.add]
  split
  · refine ⟨?_, ?_, ?_⟩
    · intro q hq
      rcases mem_aupsert elem [elem] s.group q hq with rfl | hq2
      · exact List.nodup_singleton elem
      · exact hnd q hq2
    · intro q hq x hx
      rcases mem_aupsert elem [elem] s.group q hq with rfl | hq2
      · rcases List.mem_singleton.mp hx with rfl
        exact ⟨(x, x), self_mem_aupsert x x s.leader, rfl⟩
      · rcases hmem q hq2 x hx with ⟨e, he2, hee⟩
        rcases keys_aupsert elem elem s.leader e he2 with ⟨e2, he3, hee2⟩
        exact ⟨e2, he3, hee2.trans hee⟩
    · intro e he2
      rcases mem_aupsert elem elem s.leader e he2 with rfl | he3
      · exact he
      · exact hkeys e he3
  · exact ⟨hnd, hmem, hkeys⟩

theorem dsInv_merge (s : DisjointSet) (names : List String) (a b : String)
    (s2 : DisjointSet) (h : dsInv s names) (hm : s.merge a b = some s2) :
    dsInv s2 names := by
  rcases h with ⟨hnd, hmem, hkeys⟩
  rw [DisjointSet.merge] at hm
  cases hla : alookup s.leader a with
  | none => rw [hla] at hm; cases hm
  | some la =>
  rw [hla] at hm
  simp only [Option.bind_eq_bind, Option.some_bind] at hm
  cases hlb : alookup s.leader b with
  | none => rw [hlb] at hm; cases hm
  | some lb =>
  rw [hlb] at hm
  simp only [Option.some_bind] at hm
  cases hga : alookup s.group la with
  | none => rw [hga] at hm; cases hm
  | some ga =>
  rw [hga] at hm
  simp only [Option.some_bind] at hm
  cases hgb : alookup s.group lb with
  | none => rw [hgb] at hm; cases hm
  | some gb =>
  rw [hgb] at hm
  simp only [Option.some_bind] at hm
  have hmain : ∀ (la2 lb2 : String) (ga2 gb2 : List String),
      (la2, ga2) ∈ s.group → (lb2, gb2) ∈ s.group →
      dsInv ⟨gb2.foldl (fun m e => aupsert m e la2) s.leader,
        aerase (aupsert s.group la2 (listUnion ga2 gb2)) lb2⟩ names := by
    intro la2 lb2 ga2 gb2 hga2 hgb2
    refine ⟨?_, ?_, ?_⟩
    · intro q hq
      have hq2 : q ∈ aupsert s.group la2 (listUnion ga2 gb2) :=
        List.mem_of_mem_filter hq
      rcases mem_aupsert la2 (listUnion ga2 gb2) s.group q hq2 with rfl | hq3
      · exact listUnion_nodup ga2 gb2 (hnd _ hga2) (hnd _ hgb2)
      · exact hnd q hq3
    · intro q hq x hx
      have hlift : (∃ e ∈ s.leader, e.1 = x) →
          ∃ e ∈ gb2.foldl (fun m e => aupsert m e la2) s.leader, e.1 = x := by
        rintro ⟨e, he, rfl⟩
        rcases keys_foldl_aupsert la2 gb2 s.leader e he with ⟨e2, he2, hee⟩
        exact ⟨e2, he2, hee⟩
      have hq2 : q ∈ aupsert s.group la2 (listUnion ga2 gb2) :=
        List.mem_of_mem_filter hq
      rcases mem_aupsert la2 (listUnion ga2 gb2) s.group q hq2 with rfl | hq3
      · rcases (mem_listUnion x ga2 gb2).mp hx with hx2 | hx2
        · exact hlift (hmem _ hga2 x hx2)
        · exact hlift (hmem _ hgb2 x hx2)
      · exact hlift (hmem q hq3 x hx)
    · intro e he
      rcases mem_foldl_aupsert la2 gb2 s.leader e he with ⟨x, hx, rfl⟩ | he2
      · rcases hmem _ hgb2 x hx with ⟨e0, he0, hee0⟩
        exact hee0 ▸ hkeys e0 he0
      · exact hkeys e he2
  split at hm
  · cases hm
    exact hmain lb la gb ga (alookup_mem _ _ _ hgb) (alookup_mem _ _ _ hga)
  · cases hm
    exact hmain la lb ga gb (alookup_mem _ _ _ hga) (alookup_mem _ _ _ hgb)

theorem ofoldlM_pres {σ α : Type} (f : σ → α → Option σ) (P : σ → Prop)
    (hstep : ∀ s x s2, P s → f s x = some s2 → P s2) :
    ∀ (l : List α) (s s2 : σ), P s → ofoldlM f s l = some s2 → P s2 := by
  intro l
  induction l with
  | nil =>
    intro s s2 hP h
    cases h
    exact hP
  | cons x t ih =>
    intro s s2 hP h
    rw [ofoldlM] at h
    cases hx : f s x with
    | none => rw [hx] at h; cases h
    | some s1 =>
      rw [hx, Option.some_bind] at h
      exact ih s1 s2 (hstep s x s1 hP hx) h

theorem dsInv_mergeGroup (names : List String) (ds : DisjointSet) (g : List String)
    (ds2 : DisjointSet) (h : dsInv ds names) (hm : mergeGroup ds g = some ds2) :
    dsInv ds2 names := by
  cases g with
  | nil => cases hm; exact h
  | cons g0 rest =>
    rw [mergeGroup] at hm
    exact ofoldlM_pres _ (fun s => dsInv s names)
      (fun s x s2 hP hx => dsInv_merge s names g0 x s2 hP hx) rest ds ds2 h hm

theorem dsInv_adds (names : List String) :
    ∀ (l : List String) (s : DisjointSet), dsInv s names → (∀ x ∈ l, x ∈ names) →
      dsInv (l.foldl DisjointSet.add s) names := by
  intro l
  induction l with
  | nil => exact fun s h _ => h
  | cons x t ih =>
    intro s h hx
    rw [List.foldl_cons]
    exact ih (s.add x) (dsInv_add s names x h (hx x (List.mem_cons_self _ _)))
      (fun z hz => hx z (List.mem_cons_of_mem _ hz))

theorem dsOf_inv (gs : List (List String)) (rs : List Runner) (ds : DisjointSet)
    (h : dsOf gs rs = some ds) : dsInv ds (namesOf rs) := by
  rw [dsOf] at h
  have hinit : dsInv ((namesOf rs).foldl DisjointSet.add (DisjointSet.mk [] []))
      (namesOf rs) := by
    apply dsInv_adds (namesOf rs) (namesOf rs) ⟨[], []⟩
    · refine ⟨?_, ?_, ?_⟩ <;> intro q hq <;> cases hq
    · exact fun x hx => hx
  exact ofoldlM_pres _ (fun s => dsInv s (namesOf rs))
    (fun s x s2 hP hx => dsInv_mergeGroup (namesOf rs) s x s2 hP hx) gs _ ds hinit h

/-- Every merged group of size > 1 is duplicate-free and consists of runner
names. -/
theorem bigGroups_inv (gs : List (List String)) (rs : List Runner)
    (gsBig : List (List String)) (h : bigGroupsOf gs rs = some gsBig) :
    ∀ g ∈ gsBig, g.Nodup ∧ ∀ x ∈ g, x ∈ namesOf rs := by
  rw [bigGroupsOf] at h
  cases hds : dsOf gs rs with
  | none => rw [hds] at h; cases h
  | some ds =>
    rw [hds] at h
    simp only [Option.bind_eq_bind, Option.some_bind] at h
    cases hgr : ds.groups with
    | none => rw [hgr] at h; cases h
    | some gs0 =>
      rw [hgr] at h
      simp only [Option.some_bind] at h
      cases h
      rcases dsOf_inv gs rs ds hds with ⟨hnd, hmem, hkeys⟩
      intro g hg
      have hg0 : g ∈ gs0 := List.mem_of_mem_filter hg
      rw [DisjointSet.groups] at hgr
      rcases omapM_some_rev _ _ _ hgr g hg0 with ⟨q, hq, hfq⟩
      have hqmem : (q.1, g) ∈ ds.group := alookup_mem _ _ _ hfq
      refine ⟨hnd (q.1, g) hqmem, ?_⟩
      intro x hx
      rcases hmem (q.1, g) hqmem x hx with ⟨e, he, hee⟩
      exact hee ▸ hkeys e he

/-! ### Cells of the symbolic matrix and cost sums over matchings -/

/-- The `(rank, time)` pair stored at `(r, i)` of the symbolic cost matrix. -/
def entryPair (symC : List (List (Nat × Nat))) (r i : Nat) : Nat × Nat :=
  (((symC.get? r).getD []).get? i).getD (0, 0)

theorem entryPair_spec (rs : List Runner) (race : Race) (N : Nat)
    (symC : List (List (Nat × Nat))) (hsym : symbolicC rs race N = some symC)
    (r i : Nat) (hr : r < N) (hi : i < N) :
    rank? rs r i = some (entryPair symC r i).1 ∧
    time? rs race r i = some (entryPair symC r i).2 ∧
    ∃ row, symC.get? r = some row ∧ entryPair symC r i ∈ row := by
  rcases (symbolicC_spec rs race N symC hsym).2.2 r i hr hi with
    ⟨rk, t, row, h1, h2, hrow, hcell⟩
  have he : entryPair symC r i = (rk, t) := by
    rw [entryPair, hrow]
    simp only [Option.getD_some]
    rw [hcell]
    rfl
  rw [he]
  exact ⟨h1, h2, row, hrow, List.get?_mem hcell⟩

theorem entry_enc (rs : List Runner) (race : Race) (N : Nat)
    (symC : List (List (Nat × Nat))) (hsym : symbolicC rs race N = some symC)
    (big r i : Nat) (hr : r < N) (hi : i < N) :
    entry (encMatrix symC big) r i =
      (entryPair symC r i).1 * big + (entryPair symC r i).2 := by
  rcases (symbolicC_spec rs race N symC hsym).2.2 r i hr hi with
    ⟨rk, t, row, h1, h2, hrow, hcell⟩
  have he : entryPair symC r i = (rk, t) := by
    rw [entryPair, hrow]
    simp only [Option.getD_some]
    rw [hcell]
    rfl
  rw [he]
  exact entry_encMatrix symC big r i rk t row hrow hcell

theorem rank_lt (rs : List Runner) (N : Nat)
    (hrank : ∀ rn ∈ rs, rn.ranking.length = N) (r i rk : Nat)
    (h : rank? rs r i = some rk) : rk < N := by
  rw [rank?] at h
  cases hrn : rs.get? r with
  | none => rw [hrn] at h; cases h
  | some rn =>
    rw [hrn] at h
    simp only [Option.bind_eq_bind, Option.some_bind] at h
    rcases findIdx?_spec _ rn.ranking 0 rk h with ⟨k, hk, x, hx, _⟩
    have hlen := get?_some_lt rn.ranking k x hx
    have := hrank rn (List.get?_mem hrn)
    omega

theorem perm_length_eq (σ : List Nat) (N : Nat) (hσ : σ.Perm (List.range N)) :
    σ.length = N := by
  rw [hσ.length_eq, List.length_range]

theorem perm_getD_lt (σ : List Nat) (N : Nat) (hσ : σ.Perm (List.range N)) (r : Nat)
    (hr : r < N) : σ.getD r 0 < N := by
  have hlen : σ.length = N := perm_length_eq σ N hσ
  cases hv : σ.get? r with
  | none =>
    rw [List.get?_eq_none] at hv
    omega
  | some v =>
    have hmem : v ∈ σ := List.get?_mem hv
    have : v ∈ List.range N := hσ.mem_iff.mp hmem
    rw [List.getD_eq_getD_get?, hv]
    simpa using List.mem_range.mp this

theorem perm_nodup (σ : List Nat) (N : Nat) (hσ : σ.Perm (List.range N)) : σ.Nodup :=
  hσ.nodup_iff.mpr (List.nodup_range N)

theorem permCost_eq_encSum (symC : List (List (Nat × Nat))) (big N : Nat)
    (σ : List Nat) (hσlen : σ.length = N)
    (hentry : ∀ r, r < N → entry (encMatrix symC big) r (σ.getD r 0) =
      (entryPair symC r (σ.getD r 0)).1 * big + (entryPair symC r (σ.getD r 0)).2) :
    permCost (encMatrix symC big) σ =
      encSum big ((List.range N).map (fun r => entryPair symC r (σ.getD r 0))) := by
  rw [permCost, hσlen, encSum, List.map_map]
  congr 1
  apply List.map_congr_left
  intro r hr
  exact hentry r (List.mem_range.mp hr)

theorem entry_le_permCost (C : List (List Nat)) (σ : List Nat) (r : Nat)
    (hr : r < σ.length) : entry C r (σ.getD r 0) ≤ permCost C σ := by
  rw [permCost]
  apply List.single_le_sum (fun x _ => Nat.zero_le x)
  exact List.mem_map_of_mem _ (List.mem_range.mpr hr)

/-! ### C4: `inf` dominates every fully feasible total -/

theorem sum_lt_inf (N big mt : Nat) (hN : 1 ≤ N) (hmtbig : N * mt < big) (L : List Nat)
    (hlen : L.length ≤ N) (hc : ∀ c ∈ L, c ≤ (N - 1) * big + mt) :
    L.sum < 2 * N * N * big := by
  have h1 : L.sum ≤ L.length * ((N - 1) * big + mt) := sum_le_length_mul L _ hc
  have h2 : L.length * ((N - 1) * big + mt) ≤ N * ((N - 1) * big + mt) :=
    Nat.mul_le_mul_right _ hlen
  obtain ⟨M, rfl⟩ : ∃ M, N = M + 1 := ⟨N - 1, by omega⟩
  have e1 : (M + 1) * ((M + 1 - 1) * big + mt) = (M + 1) * M * big + (M + 1) * mt := by
    simp only [Nat.add_sub_cancel]
    ring
  have e2 : 2 * (M + 1) * (M + 1) * big =
      (M + 1) * M * big + (M + 1) * (M + 2) * big := by ring
  have h4 : big ≤ (M + 1) * (M + 2) * big :=
    Nat.le_mul_of_pos_left big (Nat.mul_pos (by omega) (by omega))
  omega

/-- C4 (counterexample): in the all-times-zero instance (two runners of pace
1/2 on two 1-mile legs) the code computes `big = 0` and `inf = 0`, so a sum of
`N` non-masked encoded costs — each at most `(N-1)*big + max_time = 0` — is
`0`, which is not strictly below `inf = 0`; the claimed strict domination
fails. -/
theorem C4_counterexample :
    symbolicC [⟨"A", 1/2, [1, 2]⟩, ⟨"B", 1/2, [1, 2]⟩] ⟨[[1], [1]], []⟩ 2 =
      some [[(0, 0), (1, 0)], [(0, 0), (1, 0)]] ∧
    maxTime? [[(0, 0), (1, 0)], [(0, 0), (1, 0)]] = some 0 ∧
    ([0, 0] : List Nat).length ≤ 2 ∧
    (∀ c ∈ ([0, 0] : List Nat), c ≤ (2 - 1) * bigOf (2 * 2 * 0) + 0) ∧
    ¬ ([0, 0] : List Nat).sum < 2 * 2 * 2 * bigOf (2 * 2 * 0) := by
  refine ⟨by with_unfolding_all decide, by decide, by decide, by decide, by decide⟩

/-- C4 (amended): provided `max_time ≥ 1`, (a) every sum of at most `N`
non-masked encoded costs (each at most `(N-1)*big + max_time`) is strictly
below `inf = 2*N*N*big`, and (b) for a masked matrix built by the code and any
permutation matching, the selector's test `total < inf` holds exactly when the
matching uses no masked entry. -/
theorem C4_amended (rs : List Runner) (race : Race) (symC : List (List (Nat × Nat)))
    (mt : Nat) (hsym : symbolicC rs race rs.length = some symC)
    (hmt : maxTime? symC = some mt) (hpos : 1 ≤ mt)
    (hrank : ∀ rn ∈ rs, rn.ranking.length = rs.length) :
    (∀ L : List Nat, L.length ≤ rs.length →
      (∀ c ∈ L, c ≤ (rs.length - 1) * bigOf (2 * rs.length * mt) + mt) →
      L.sum < 2 * rs.length * rs.length * bigOf (2 * rs.length * mt)) ∧
    (∀ (gsBig : List (List String)) (p : List Nat) (cm : List (List Nat)) (σ : List Nat),
      (∀ ig, ig < gsBig.length →
        ∃ pi ok, p.get? ig = some pi ∧ race.groups.get? pi = some ok) →
      (∀ g ∈ gsBig, ∀ mem ∈ g, mem ∈ namesOf rs) →
      applyMask (encMatrix symC (bigOf (2 * rs.length * mt)))
        (2 * rs.length * rs.length * bigOf (2 * rs.length * mt)) gsBig race.groups
        p (namesOf rs) rs.length = some cm →
      σ.Perm (List.range rs.length) →
      (permCost cm σ < 2 * rs.length * rs.length * bigOf (2 * rs.length * mt) ↔
        ∀ r, r < rs.length →
          ¬ maskedAt gsBig race.groups p (namesOf rs) rs.length r (σ.getD r 0))) := by
  have hN : 1 ≤ rs.length := pos_of_maxTime rs race symC mt hsym hmt
  have hM : 1 ≤ 2 * rs.length * mt := Nat.mul_pos (Nat.mul_pos (by omega) hN) hpos
  have hbig : 2 * rs.length * mt ≤ bigOf (2 * rs.length * mt) := le_bigOf _ hM
  have hmtbig : rs.length * mt < bigOf (2 * rs.length * mt) := by
    have e : 2 * rs.length * mt = 2 * (rs.length * mt) := by ring
    have hpos2 : 0 < rs.length * mt := Nat.mul_pos hN hpos
    omega
  have hpart1 : ∀ L : List Nat, L.length ≤ rs.length →
      (∀ c ∈ L, c ≤ (rs.length - 1) * bigOf (2 * rs.length * mt) + mt) →
      L.sum < 2 * rs.length * rs.length * bigOf (2 * rs.length * mt) :=
    fun L hlen hc => sum_lt_inf rs.length _ mt hN hmtbig L hlen hc
  refine ⟨hpart1, ?_⟩
  intro gsBig p cm σ hok hmem hcm hσ
  have hnames : (namesOf rs).length = rs.length := by rw [namesOf, List.length_map]
  have hσlen : σ.length = rs.length := perm_length_eq σ rs.length hσ
  rcases applyMask_spec (encMatrix symC (bigOf (2 * rs.length * mt)))
      (2 * rs.length * rs.length * bigOf (2 * rs.length * mt)) gsBig race.groups p
      (namesOf rs) rs.length
      (encMatrix_rect symC rs.length _ (symbolicC_spec rs race rs.length symC hsym).1
        (symbolicC_spec rs race rs.length symC hsym).2.1)
      hnames hok hmem with ⟨cm2, hcm2, hrect2, hmask, hkeep⟩
  have heq : cm2 = cm := by
    rw [hcm] at hcm2
    exact (Option.some_injective _ hcm2).symm
  subst heq
  constructor
  · intro hlt r hr hmasked
    have h1 : entry cm2 r (σ.getD r 0) =
        2 * rs.length * rs.length * bigOf (2 * rs.length * mt) :=
      hmask r (σ.getD r 0) hmasked
    have h2 := entry_le_permCost cm2 σ r (by omega)
    omega
  · intro hall
    have hEq : permCost cm2 σ = permCost (encMatrix symC (bigOf (2 * rs.length * mt))) σ := by
      rw [permCost, permCost]
      congr 1
      apply List.map_congr_left
      intro r hr
      exact hkeep r (σ.getD r 0) (hall r (by rw [← hσlen]; exact List.mem_range.mp hr))
    rw [hEq, permCost]
    apply hpart1
    · rw [List.length_map, List.length_range, hσlen]
    · intro c hc
      rcases List.mem_map.mp hc with ⟨r, hr, rfl⟩
      have hrN : r < rs.length := by
        have := List.mem_range.mp hr
        omega
      have hiN : σ.getD r 0 < rs.length := perm_getD_lt σ rs.length hσ r hrN
      rw [entry_enc rs race rs.length symC hsym _ r _ hrN hiN]
      rcases entryPair_spec rs race rs.length symC hsym r (σ.getD r 0) hrN hiN with
        ⟨hrk, ht, row, hrow, hmemrow⟩
      have hrklt : (entryPair symC r (σ.getD r 0)).1 < rs.length :=
        rank_lt rs rs.length hrank r _ _ hrk
      have htle : (entryPair symC r (σ.getD r 0)).2 ≤ mt :=
        maxTime?_spec symC mt hmt row (List.get?_mem hrow) _ hmemrow
      have : (entryPair symC r (σ.getD r 0)).1 * bigOf (2 * rs.length * mt) ≤
          (rs.length - 1) * bigOf (2 * rs.length * mt) :=
        Nat.mul_le_mul_right _ (by omega)
      omega

/-- C4 (amended) at a concrete input: two runners (paces 1 and 2, legs of 1 and
2 miles, `big = 100`, `inf = 800`), one race group containing both legs, and
the identity matching of the unmasked matrix. -/
theorem C4_witness :
    ([102, 104] : List Nat).sum < 2 * 2 * 2 * bigOf (2 * 2 * 4) ∧
    (permCost [[1, 102], [2, 104]] [0, 1] < 2 * 2 * 2 * bigOf (2 * 2 * 4) ↔
      ∀ r, r < 2 → ¬ maskedAt [["A", "B"]] [[1, 2]] [0] ["A", "B"] 2 r
        (([0, 1] : List Nat).getD r 0)) := by
  have h := C4_amended [⟨"A", 1, [1, 2]⟩, ⟨"B", 2, [1, 2]⟩] ⟨[[1], [2]], [[1, 2]]⟩
    [[(0, 1), (1, 2)], [(0, 2), (1, 4)]] 4 (by with_unfolding_all decide) (by decide)
    (by decide) (by decide)
  exact ⟨h.1 [102, 104] (by decide) (by decide),
    h.2 [["A", "B"]] [0] [[1, 102], [2, 104]] [0, 1]
      (by
        intro ig hig
        simp only [List.length_cons, List.length_nil] at hig
        have h0 : ig = 0 := by omega
        subst h0
        exact ⟨0, [1, 2], rfl, rfl⟩)
      (by decide) (by decide) (by decide)⟩

/-! ### C8: infeasibility is reported as `None` -/

theorem findIdx?_beq_get (l : List String) (v : String) (j : Nat)
    (h : List.findIdx? (fun y => y == v) l 0 = some j) : l.get? j = some v := by
  rcases findIdx?_spec _ l 0 j h with ⟨k, hk, x, hx, hpx⟩
  have hxv : x = v := by simpa using hpx
  subst hxv
  rw [show j = k from by omega]
  exact hx

theorem nodup_getD_inj (σ : List Nat) (r1 r2 : Nat) (hnd : σ.Nodup)
    (h1 : r1 < σ.length) (h2 : r2 < σ.length) (he : σ.getD r1 0 = σ.getD r2 0) :
    r1 = r2 := by
  cases hv1 : σ.get? r1 with
  | none => rw [List.get?_eq_none] at hv1; omega
  | some v1 =>
    cases hv2 : σ.get? r2 with
    | none => rw [List.get?_eq_none] at hv2; omega
    | some v2 =>
      have e1 : σ.getD r1 0 = v1 := by rw [List.getD_eq_getD_get?, hv1]; rfl
      have e2 : σ.getD r2 0 = v2 := by rw [List.getD_eq_getD_get?, hv2]; rfl
      have hv : v1 = v2 := by omega
      subst hv
      have f1 := findIdx?_nodup σ hnd r1 v1 hv1
      have f2 := findIdx?_nodup σ hnd r2 v1 hv2
      rw [f1] at f2
      exact Option.some_injective _ f2

/-- C8 (counterexample): on the empty input (no runners, no legs) the only
candidate is the empty tuple with matching total `0`, and `inf = 0`, so no
candidate yields a total strictly below `inf`; the claim then demands the
explicit result `None`, but the source raises instead (`max()` of an empty
sequence), modelled by the outer `none`. -/
theorem C8_counterexample :
    optimal_assignment [] [] ⟨[], []⟩ = none ∧
    allGroupAssignments 0 0 = [[]] ∧
    ¬ permCost [] (minPerm [] 0) < 2 * 0 * 0 * bigOf (2 * 0 * 0) := by
  refine ⟨by decide, by decide, by decide⟩

/-- C8 (amended): whenever `optimal_assignment` returns a value (rather than
raising), and no candidate admits a matching total strictly below `inf`, the
returned value is `None`; in particular, when some merged constraint group has
more members than the allowed-leg-set size of every race group, the result is
never a (spurious) assignment. -/
theorem C8_amended (gs : List (List String)) (rs : List Runner) (race : Race)
    (gsBig : List (List String)) (symC : List (List (Nat × Nat))) (mt : Nat)
    (r : Option (List String))
    (hg : bigGroupsOf gs rs = some gsBig)
    (hsym : symbolicC rs race rs.length = some symC)
    (hmt : maxTime? symC = some mt)
    (hres : optimal_assignment gs rs race = some r) :
    ((∀ p ∈ allGroupAssignments gsBig.length race.groups.length,
      ∀ cm, applyMask (encMatrix symC (bigOf (2 * rs.length * mt)))
          (2 * rs.length * rs.length * bigOf (2 * rs.length * mt)) gsBig race.groups p
          (namesOf rs) rs.length = some cm →
        ¬ permCost cm (minPerm cm rs.length) <
          2 * rs.length * rs.length * bigOf (2 * rs.length * mt)) → r = none) ∧
    ((∃ g ∈ gsBig, ∀ rg ∈ race.groups, rg.toFinset.card < g.length) → r = none) := by
  rcases optimal_assignment_inv gs rs race r hres with
    ⟨gsBig2, symC2, mt2, fres, hg2, hsym2, hmt2, hfold, hr⟩
  rw [hg] at hg2
  cases hg2
  rw [hsym] at hsym2
  cases hsym2
  rw [hmt] at hmt2
  cases hmt2
  have hpart1 : (∀ p ∈ allGroupAssignments gsBig.length race.groups.length,
      ∀ cm, applyMask (encMatrix symC (bigOf (2 * rs.length * mt)))
          (2 * rs.length * rs.length * bigOf (2 * rs.length * mt)) gsBig race.groups p
          (namesOf rs) rs.length = some cm →
        ¬ permCost cm (minPerm cm rs.length) <
          2 * rs.length * rs.length * bigOf (2 * rs.length * mt)) → r = none := by
    intro hall
    rcases sel_fold_provenance _ _ _ _ _ _ _ _ _ hfold with heq | ⟨p, hp, cm, hcm, h1, h2, h3⟩
    · rw [hr, heq]
    · exact absurd h3 (hall p hp cm hcm)
  refine ⟨hpart1, ?_⟩
  rintro ⟨g, hgmem, hcard⟩
  apply hpart1
  intro p hp cm hcm hlt
  have hnames : (namesOf rs).length = rs.length := by rw [namesOf, List.length_map]
  rcases List.get?_of_mem hgmem with ⟨ig, hig⟩
  have higlen : ig < gsBig.length := get?_some_lt _ _ _ hig
  rcases (mem_allGroupAssignments race.groups.length gsBig.length p).mp hp with ⟨hplen, hpent⟩
  have hok : ∀ ig2, ig2 < gsBig.length →
      ∃ pi ok, p.get? ig2 = some pi ∧ race.groups.get? pi = some ok := by
    intro ig2 hig2
    cases hpi : p.get? ig2 with
    | none => rw [List.get?_eq_none] at hpi; omega
    | some pi =>
      have hpik : pi < race.groups.length := hpent pi (List.get?_mem hpi)
      cases hok2 : race.groups.get? pi with
      | none => rw [List.get?_eq_none] at hok2; omega
      | some ok => exact ⟨pi, ok, rfl, hok2⟩
  have hmem2 : ∀ g2 ∈ gsBig, ∀ mem ∈ g2, mem ∈ namesOf rs :=
    fun g2 hg2 mem hm => (bigGroups_inv gs rs gsBig hg g2 hg2).2 mem hm
  rcases applyMask_spec (encMatrix symC (bigOf (2 * rs.length * mt)))
      (2 * rs.length * rs.length * bigOf (2 * rs.length * mt)) gsBig race.groups p
      (namesOf rs) rs.length
      (encMatrix_rect symC rs.length _ (symbolicC_spec rs race rs.length symC hsym).1
        (symbolicC_spec rs race rs.length symC hsym).2.1)
      hnames hok hmem2 with ⟨cm2, hcm2, hrect2, hmask, hkeep⟩
  have heqcm : cm2 = cm := by
    rw [hcm] at hcm2
    exact (Option.some_injective _ hcm2).symm
  subst heqcm
  -- the optimal matching of this candidate
  have hσ : (minPerm cm2 rs.length).Perm (List.range rs.length) := minPerm_perm _ _
  have hσlen : (minPerm cm2 rs.length).length = rs.length := perm_length_eq _ _ hσ
  have hσnd : (minPerm cm2 rs.length).Nodup := perm_nodup _ _ hσ
  have hnomask : ∀ r2, r2 < rs.length →
      ¬ maskedAt gsBig race.groups p (namesOf rs) rs.length r2
        ((minPerm cm2 rs.length).getD r2 0) := by
    intro r2 hr2 hmasked
    have h1 := hmask r2 _ hmasked
    have h2 := entry_le_permCost cm2 (minPerm cm2 rs.length) r2 (by omega)
    omega
  -- extract pi and ok for the group g
  rcases hok ig higlen with ⟨pi, ok, hpi, hok3⟩
  have hokmem : ok ∈ race.groups := List.get?_mem hok3
  have hokcard := hcard ok hokmem
  have hgnd : g.Nodup := (bigGroups_inv gs rs gsBig hg g hgmem).1
  -- every member sits on a leg inside ok
  have hrow : ∀ mem ∈ g, ∃ rm, List.findIdx? (fun nm => nm == mem) (namesOf rs) 0 = some rm ∧
      rm < rs.length := by
    intro mem hm
    rcases findIdx?_of_mem_beq (namesOf rs) mem (hmem2 g hgmem mem hm) with ⟨rm, h1, h2⟩
    exact ⟨rm, h1, by omega⟩
  have hinok : ∀ mem ∈ g,
      ((minPerm cm2 rs.length).getD
        ((List.findIdx? (fun nm => nm == mem) (namesOf rs) 0).getD 0) 0) + 1 ∈ ok := by
    intro mem hm
    rcases hrow mem hm with ⟨rm, hfi, hrmN⟩
    rw [hfi]
    simp only [Option.getD_some]
    by_contra hc
    apply hnomask rm hrmN
    refine (maskedAt_iff gsBig race.groups p (namesOf rs) rs.length rm _).mpr
      ⟨ig, g, pi, ok, hig, hpi, hok3, ⟨mem, hm, hfi⟩, perm_getD_lt _ _ hσ rm hrmN, ?_⟩
    rw [List.contains_eq_any_beq, List.any_eq_false]
    intro y hy hb
    exact hc (by rw [eq_of_beq hb]; exact hy)
  -- pigeonhole: member ↦ assigned 1-based leg is injective into ok
  have hinj : g.toFinset.card ≤ ok.toFinset.card := by
    apply Finset.card_le_card_of_injOn (fun mem =>
      ((minPerm cm2 rs.length).getD
        ((List.findIdx? (fun nm => nm == mem) (namesOf rs) 0).getD 0) 0) + 1)
    · intro mem hm
      rw [List.mem_toFinset] at hm ⊢
      exact hinok mem hm
    · intro mem1 hm1 mem2 hm2 he
      rw [Finset.mem_coe, List.mem_toFinset] at hm1 hm2
      rcases hrow mem1 hm1 with ⟨rm1, hf1, hN1⟩
      rcases hrow mem2 hm2 with ⟨rm2, hf2, hN2⟩
      simp only [hf1, hf2, Option.getD_some] at he
      have he2 : (minPerm cm2 rs.length).getD rm1 0 =
          (minPerm cm2 rs.length).getD rm2 0 := by omega
      have hr12 : rm1 = rm2 := nodup_getD_inj _ rm1 rm2 hσnd (by omega) (by omega) he2
      subst hr12
      have g1 := findIdx?_beq_get (namesOf rs) mem1 rm1 hf1
      have g2 := findIdx?_beq_get (namesOf rs) mem2 rm1 hf2
      rw [g1] at g2
      exact Option.some_injective _ g2
  rw [List.toFinset_card_of_nodup hgnd] at hinj
  omega

theorem C8_witness : (none : Option (List String)) = none :=
  (C8_amended [["A", "B"]] [⟨"A", 1, [1, 2]⟩, ⟨"B", 1, [1, 2]⟩] ⟨[[1], [1]], [[1]]⟩
      [["A", "B"]] [[(0, 1), (1, 1)], [(0, 1), (1, 1)]] 1 none
      (by with_unfolding_all decide) (by with_unfolding_all decide)
      (by with_unfolding_all decide) (by with_unfolding_all decide)).2
    ⟨["A", "B"], by decide, by decide⟩

/-! ### C9: group integrity of returned assignments -/

theorem zip_find?_eq :
    ∀ (names : List String) (σ : List Nat) (r i : Nat) (nm : String), σ.Nodup →
      σ.get? r = some i → names.get? r = some nm →
      (names.zip σ).find? (fun q => q.2 == i) = some (nm, i) := by
  intro names
  induction names with
  | nil =>
    intro σ r i nm _ _ hnm
    cases r <;> cases hnm
  | cons n t ih =>
    intro σ r i nm hnd hσ hnm
    cases σ with
    | nil => cases r <;> cases hσ
    | cons v w =>
      cases r with
      | zero =>
        have hv : v = i := Option.some_injective _ hσ
        have hn : n = nm := Option.some_injective _ hnm
        subst hv
        subst hn
        rw [List.zip_cons_cons, List.find?_cons_of_pos _ (by simp)]
      | succ r2 =>
        have hσ2 : w.get? r2 = some i := hσ
        have hnm2 : t.get? r2 = some nm := hnm
        have hvi : ¬ v = i := by
          intro hvi
          subst hvi
          exact (List.nodup_cons.mp hnd).1 (List.get?_mem hσ2)
        rw [List.zip_cons_cons, List.find?_cons_of_neg _ (by simpa using hvi)]
        exact ih w r2 i nm (List.nodup_cons.mp hnd).2 hσ2 hnm2

theorem assignmentOf_get? (names : List String) (σ : List Nat) (N i : Nat) (mem : String)
    (hperm : σ.Perm (List.range N)) (hlen : names.length = N) (hi : i < N)
    (ha : (assignmentOf names σ N).get? i = some mem) :
    ∃ r, r < N ∧ σ.get? r = some i ∧ names.get? r = some mem := by
  have hσnd := perm_nodup σ N hperm
  have hσlen := perm_length_eq σ N hperm
  have hiσ : i ∈ σ := hperm.mem_iff.mpr (List.mem_range.mpr hi)
  rcases List.get?_of_mem hiσ with ⟨r, hr⟩
  have hrN : r < N := by
    have := get?_some_lt σ r i hr
    omega
  cases hnm : names.get? r with
  | none =>
    rw [List.get?_eq_none] at hnm
    omega
  | some nm =>
    have hfind := zip_find?_eq names σ r i nm hσnd hr hnm
    rw [assignmentOf, List.get?_map, List.get?_range hi] at ha
    simp only [hfind, Option.map_some', Option.getD_some, Option.some.injEq] at ha
    exact ⟨r, hrN, hr, by rw [hnm, ha]⟩

/-- C9: group integrity.  If the runner names are distinct (they are keys of a
dict in the source) and `optimal_assignment` returns an assignment `a`, then
for every merged constraint group there is a single race group `ok` such that
every member's assigned leg (every position of `a` holding that member, 1-based)
lies in `ok`. -/
theorem C9_group_integrity (gs : List (List String)) (rs : List Runner) (race : Race)
    (a : List String)
    (hnd : (namesOf rs).Nodup)
    (hres : optimal_assignment gs rs race = some (some a)) :
    ∃ gsBig, bigGroupsOf gs rs = some gsBig ∧
      ∀ ig g, gsBig.get? ig = some g →
        ∃ ok ∈ race.groups, ∀ mem ∈ g, ∀ i, a.get? i = some mem → (i + 1) ∈ ok := by
  rcases optimal_assignment_inv gs rs race (some a) hres with
    ⟨gsBig, symC, mt, fres, hg, hsym, hmt, hfold, hr⟩
  rcases sel_fold_provenance _ _ _ _ _ _ _ _ _ hfold with heq | ⟨p, hp, cm, hcm, h1, h2, h3⟩
  · rw [heq] at hr
    cases hr
  · have ha : a = assignmentOf (namesOf rs) (minPerm cm rs.length) rs.length := by
      rw [h1] at hr
      exact Option.some_injective _ hr
    have hnames : (namesOf rs).length = rs.length := by rw [namesOf, List.length_map]
    rcases (mem_allGroupAssignments race.groups.length gsBig.length p).mp hp with
      ⟨hplen, hpent⟩
    have hok : ∀ ig2, ig2 < gsBig.length →
        ∃ pi ok, p.get? ig2 = some pi ∧ race.groups.get? pi = some ok := by
      intro ig2 hig2
      cases hpi : p.get? ig2 with
      | none =>
        rw [List.get?_eq_none] at hpi
        omega
      | some pi =>
        have hpik : pi < race.groups.length := hpent pi (List.get?_mem hpi)
        cases hok2 : race.groups.get? pi with
        | none =>
          rw [List.get?_eq_none] at hok2
          omega
        | some ok => exact ⟨pi, ok, rfl, hok2⟩
    have hmem2 : ∀ g2 ∈ gsBig, ∀ mem ∈ g2, mem ∈ namesOf rs :=
      fun g2 hg2 mem hm => (bigGroups_inv gs rs gsBig hg g2 hg2).2 mem hm
    rcases applyMask_spec (encMatrix symC (bigOf (2 * rs.length * mt)))
        (2 * rs.length * rs.length * bigOf (2 * rs.length * mt)) gsBig race.groups p
        (namesOf rs) rs.length
        (encMatrix_rect symC rs.length _ (symbolicC_spec rs race rs.length symC hsym).1
          (symbolicC_spec rs race rs.length symC hsym).2.1)
        hnames hok hmem2 with ⟨cm2, hcm2, hrect2, hmask, hkeep⟩
    have heqcm : cm2 = cm := by
      rw [hcm] at hcm2
      exact (Option.some_injective _ hcm2).symm
    subst heqcm
    have hσ : (minPerm cm2 rs.length).Perm (List.range rs.length) := minPerm_perm _ _
    have hσlen : (minPerm cm2 rs.length).length = rs.length := perm_length_eq _ _ hσ
    have hnomask : ∀ r2, r2 < rs.length →
        ¬ maskedAt gsBig race.groups p (namesOf rs) rs.length r2
          ((minPerm cm2 rs.length).getD r2 0) := by
      intro r2 hr2 hmasked
      have hh1 := hmask r2 _ hmasked
      have hh2 := entry_le_permCost cm2 (minPerm cm2 rs.length) r2 (by omega)
      omega
    refine ⟨gsBig, hg, ?_⟩
    intro ig g hig
    have higlen : ig < gsBig.length := get?_some_lt _ _ _ hig
    rcases hok ig higlen with ⟨pi, ok, hpi, hok3⟩
    refine ⟨ok, List.get?_mem hok3, ?_⟩
    intro mem hm i hai
    have hilen : i < rs.length := by
      have := get?_some_lt a i mem hai
      rw [ha, assignmentOf, List.length_map, List.length_range] at this
      omega
    rw [ha] at hai
    rcases assignmentOf_get? (namesOf rs) (minPerm cm2 rs.length) rs.length i mem
        hσ hnames hilen hai with ⟨r, hrN, hσr, hnmr⟩
    have hfi : List.findIdx? (fun nm => nm == mem) (namesOf rs) 0 = some r :=
      findIdx?_nodup (namesOf rs) hnd r mem hnmr
    have hgetD : (minPerm cm2 rs.length).getD r 0 = i := by
      rw [List.getD_eq_getD_get?, hσr]
      rfl
    by_contra hc
    apply hnomask r hrN
    rw [hgetD]
    refine (maskedAt_iff gsBig race.groups p (namesOf rs) rs.length r i).mpr
      ⟨ig, g, pi, ok, hig, hpi, hok3, ⟨mem, hm, hfi⟩, hilen, ?_⟩
    rw [List.contains_eq_any_beq, List.any_eq_false]
    intro y hy hb
    exact hc (by rw [eq_of_beq hb]; exact hy)

theorem C9_witness :
    ∃ gsBig, bigGroupsOf [["A", "B"]] [⟨"A", 1, [1, 2]⟩, ⟨"B", 1, [1, 2]⟩] = some gsBig ∧
      ∀ ig g, gsBig.get? ig = some g →
        ∃ ok ∈ ([[1, 2]] : List (List Nat)), ∀ mem ∈ g, ∀ i,
          (["A", "B"] : List String).get? i = some mem → (i + 1) ∈ ok :=
  C9_group_integrity [["A", "B"]] [⟨"A", 1, [1, 2]⟩, ⟨"B", 1, [1, 2]⟩] ⟨[[1], [1]], [[1, 2]]⟩
    ["A", "B"] (by decide) (by with_unfolding_all decide)

/-! ### C1: lexicographic optimality of the returned assignment -/

/-- `rank(r, i)` as a total function (the pipeline's success makes it defined). -/
def rankVal (rs : List Runner) (r i : Nat) : Nat := (rank? rs r i).getD 0

/-- `time(r, i)` as a total function. -/
def timeVal (rs : List Runner) (race : Race) (r i : Nat) : Nat :=
  (time? rs race r i).getD 0

/-- Sum of ranks of a runner-indexed assignment `σ` (row `r` runs leg `σ r`). -/
def sumRanks (rs : List Runner) (N : Nat) (σ : List Nat) : Nat :=
  ((List.range N).map (fun r => rankVal rs r (σ.getD r 0))).sum

/-- Sum of times of a runner-indexed assignment `σ`. -/
def sumTimes (rs : List Runner) (race : Race) (N : Nat) (σ : List Nat) : Nat :=
  ((List.range N).map (fun r => timeVal rs race r (σ.getD r 0))).sum

/-- The runner-indexed permutation encoded by a leg-indexed name list `b`:
row `r` is assigned the position of `names[r]` in `b`. -/
def sigmaOf (names : List String) (b : List String) : List Nat :=
  names.map (fun nm => (List.findIdx? (fun x => x == nm) b 0).getD 0)

theorem contains_of_mem (l : List Nat) (x : Nat) (h : x ∈ l) : l.contains x = true := by
  rw [List.contains_eq_any_beq, List.any_eq_true]
  exact ⟨x, h, by simp⟩

theorem choose_list (k : Nat) (Q : Nat → Nat → Prop) :
    ∀ (n : Nat), (∀ ig, ig < n → ∃ pi, pi < k ∧ Q ig pi) →
    ∃ q : List Nat, q.length = n ∧ (∀ j ∈ q, j < k) ∧
      ∀ ig, ig < n → ∃ pi, q.get? ig = some pi ∧ Q ig pi := by
  intro n
  induction n with
  | zero =>
    intro _
    exact ⟨[], rfl, by simp, fun ig hig => absurd hig (by omega)⟩
  | succ m ih =>
    intro h
    rcases ih (fun ig hig => h ig (by omega)) with ⟨q, hlen, hbound, hq⟩
    rcases h m (by omega) with ⟨pm, hpm, hQm⟩
    refine ⟨q ++ [pm], by simp [hlen], ?_, ?_⟩
    · intro j hj
      rcases List.mem_append.mp hj with hj | hj
      · exact hbound j hj
      · have : j = pm := by simpa using hj
        omega
    · intro ig hig
      by_cases hlt : ig < m
      · rcases hq ig hlt with ⟨pi, hget, hQ⟩
        refine ⟨pi, ?_, hQ⟩
        rw [List.get?_append (by omega)]
        exact hget
      · have hig2 : ig = m := by omega
        subst hig2
        refine ⟨pm, ?_, hQm⟩
        rw [List.get?_append_right (by omega), hlen, Nat.sub_self]
        rfl

theorem permCost_eq_of_unmasked (C cm : List (List Nat)) (σ : List Nat) (N : Nat)
    (hσlen : σ.length = N)
    (h : ∀ r, r < N → entry cm r (σ.getD r 0) = entry C r (σ.getD r 0)) :
    permCost cm σ = permCost C σ := by
  rw [permCost, permCost, hσlen]
  apply congrArg
  apply List.map_congr_left
  intro r hr
  exact h r (List.mem_range.mp hr)

theorem assignmentOf_get (names : List String) (σ : List Nat) (N r i : Nat) (nm : String)
    (hσnd : σ.Nodup) (hi : i < N)
    (hσr : σ.get? r = some i) (hnm : names.get? r = some nm) :
    (assignmentOf names σ N).get? i = some nm := by
  rw [assignmentOf, List.get?_map, List.get?_range hi]
  simp only [Option.map_some']
  simp only [zip_find?_eq names σ r i nm hσnd hσr hnm, Option.map_some', Option.getD_some]

theorem assignmentOf_nodup (names : List String) (σ : List Nat) (N : Nat)
    (hperm : σ.Perm (List.range N)) (hlen : names.length = N) (hnd : names.Nodup) :
    (assignmentOf names σ N).Nodup := by
  rw [List.nodup_iff_injective_get]
  rintro ⟨i1, h1⟩ ⟨i2, h2⟩ heq
  have hlenA : (assignmentOf names σ N).length = N := by
    rw [assignmentOf, List.length_map, List.length_range]
  have hg1 : (assignmentOf names σ N).get? i1 =
      some ((assignmentOf names σ N).get ⟨i2, h2⟩) := by
    rw [List.get?_eq_get h1, heq]
  have hg2 : (assignmentOf names σ N).get? i2 =
      some ((assignmentOf names σ N).get ⟨i2, h2⟩) := List.get?_eq_get h2
  rcases assignmentOf_get? names σ N i1 _ hperm hlen (by omega) hg1 with ⟨r1, _, hσ1, hn1⟩
  rcases assignmentOf_get? names σ N i2 _ hperm hlen (by omega) hg2 with ⟨r2, _, hσ2, hn2⟩
  have f1 := findIdx?_nodup names hnd r1 _ hn1
  have f2 := findIdx?_nodup names hnd r2 _ hn2
  rw [f1] at f2
  have hr12 : r1 = r2 := Option.some_injective _ f2
  subst hr12
  rw [hσ1] at hσ2
  exact Fin.ext (Option.some_injective _ hσ2)

theorem sigmaOf_assignmentOf (names : List String) (σ : List Nat) (N : Nat)
    (hperm : σ.Perm (List.range N)) (hlen : names.length = N) (hnd : names.Nodup) :
    sigmaOf names (assignmentOf names σ N) = σ := by
  have hσlen := perm_length_eq σ N hperm
  have hσnd := perm_nodup σ N hperm
  apply List.ext_get?
  intro r
  rw [sigmaOf, List.get?_map]
  by_cases hr : r < N
  · cases hnm : names.get? r with
    | none =>
      rw [List.get?_eq_none] at hnm
      omega
    | some nm =>
      cases hσr : σ.get? r with
      | none =>
        rw [List.get?_eq_none] at hσr
        omega
      | some i =>
        have hiN : i < N := by
          have hmem : i ∈ σ := List.get?_mem hσr
          have := List.mem_range.mp (hperm.mem_iff.mp hmem)
          omega
        have hga := assignmentOf_get names σ N r i nm hσnd hiN hσr hnm
        have hfa := findIdx?_nodup (assignmentOf names σ N)
          (assignmentOf_nodup names σ N hperm hlen hnd) i nm hga
        simp only [Option.map_some', hfa, Option.getD_some]
  · have h1 : names.get? r = none := by
      rw [List.get?_eq_none]
      omega
    have h2 : σ.get? r = none := by
      rw [List.get?_eq_none]
      omega
    rw [h1, h2]
    rfl

theorem totals_eq (rs : List Runner) (race : Race) (N : Nat)
    (symC : List (List (Nat × Nat))) (hsym : symbolicC rs race N = some symC)
    (σ : List Nat) (hd : ∀ r, r < N → σ.getD r 0 < N) :
    pairSum ((List.range N).map (fun r => entryPair symC r (σ.getD r 0))) =
      (sumRanks rs N σ, sumTimes rs race N σ) := by
  rw [pairSum, List.map_map, List.map_map]
  congr 1
  · rw [sumRanks]
    apply congrArg
    apply List.map_congr_left
    intro r hr
    have hrN := List.mem_range.mp hr
    have h := (entryPair_spec rs race N symC hsym r (σ.getD r 0) hrN (hd r hrN)).1
    simp only [Function.comp, rankVal, h, Option.getD_some]
  · rw [sumTimes]
    apply congrArg
    apply List.map_congr_left
    intro r hr
    have hrN := List.mem_range.mp hr
    have h := (entryPair_spec rs race N symC hsym r (σ.getD r 0) hrN (hd r hrN)).2.1
    simp only [Function.comp, timeVal, h, Option.getD_some]

theorem sumTimes_le (rs : List Runner) (race : Race) (N : Nat)
    (symC : List (List (Nat × Nat))) (hsym : symbolicC rs race N = some symC)
    (mt : Nat) (hmt : maxTime? symC = some mt) (σ : List Nat)
    (hd : ∀ r, r < N → σ.getD r 0 < N) :
    sumTimes rs race N σ ≤ N * mt := by
  rw [sumTimes]
  have h := sum_le_length_mul
    ((List.range N).map (fun r => timeVal rs race r (σ.getD r 0))) mt ?_
  · rw [List.length_map, List.length_range] at h
    exact h
  · intro x hx
    rcases List.mem_map.mp hx with ⟨r, hr, rfl⟩
    have hrN := List.mem_range.mp hr
    rcases entryPair_spec rs race N symC hsym r (σ.getD r 0) hrN (hd r hrN) with
      ⟨h1, h2, row, hrow, hmem⟩
    have hle := maxTime?_spec symC mt hmt row (List.get?_mem hrow) _ hmem
    rw [timeVal, h2]
    simpa using hle

theorem permCost_lt_inf (rs : List Runner) (race : Race) (N : Nat)
    (symC : List (List (Nat × Nat))) (hsym : symbolicC rs race N = some symC)
    (mt : Nat) (hmt : maxTime? symC = some mt)
    (hrank : ∀ rn ∈ rs, rn.ranking.length = N)
    (big : Nat) (hN : 1 ≤ N) (hbig : N * mt < big)
    (σ : List Nat) (hσlen : σ.length = N) (hd : ∀ r, r < N → σ.getD r 0 < N) :
    permCost (encMatrix symC big) σ < 2 * N * N * big := by
  rw [permCost, hσlen]
  apply sum_lt_inf N big mt hN hbig
  · simp
  · intro c hc
    rcases List.mem_map.mp hc with ⟨r, hr, rfl⟩
    have hrN := List.mem_range.mp hr
    rcases entryPair_spec rs race N symC hsym r (σ.getD r 0) hrN (hd r hrN) with
      ⟨h1, h2, row, hrow, hmem⟩
    rw [entry_enc rs race N symC hsym big r (σ.getD r 0) hrN (hd r hrN)]
    have hrk : (entryPair symC r (σ.getD r 0)).1 < N := rank_lt rs N hrank r (σ.getD r 0) _ h1
    have ht : (entryPair symC r (σ.getD r 0)).2 ≤ mt :=
      maxTime?_spec symC mt hmt row (List.get?_mem hrow) _ hmem
    have hmul : (entryPair symC r (σ.getD r 0)).1 * big ≤ (N - 1) * big :=
      Nat.mul_le_mul_right _ (by omega)
    omega

/-- C1: optimality.  Whenever the runner names are distinct, rankings have full
length, the runner count equals the leg count, and `optimal_assignment` returns
an assignment `a`, the runner-indexed permutation encoded by `a` has a
`(sum of ranks, sum of times)` total lexicographically ≤ the total of every
bijection `σ` of runners to legs under which each merged constraint group's
members all occupy legs of a single race group's allowed leg set. -/
theorem C1_optimality (gs : List (List String)) (rs : List Runner) (race : Race)
    (a : List String) (σ : List Nat)
    (hnd : (namesOf rs).Nodup)
    (hrank : ∀ rn ∈ rs, rn.ranking.length = rs.length)
    (hleg : race.legs.length = rs.length)
    (hres : optimal_assignment gs rs race = some (some a))
    (hσ : σ.Perm (List.range rs.length))
    (hfeas : ∀ gsBig, bigGroupsOf gs rs = some gsBig →
      ∀ ig g, gsBig.get? ig = some g →
        ∃ ok ∈ race.groups, ∀ mem ∈ g, ∀ r, (namesOf rs).get? r = some mem →
          (σ.getD r 0 + 1) ∈ ok) :
    lexLe (sumRanks rs rs.length (sigmaOf (namesOf rs) a),
           sumTimes rs race rs.length (sigmaOf (namesOf rs) a))
          (sumRanks rs rs.length σ, sumTimes rs race rs.length σ) := by
  rcases optimal_assignment_inv gs rs race (some a) hres with
    ⟨gsBig, symC, mt, fres, hg, hsym, hmt, hfold, hr⟩
  rcases sel_fold_provenance _ _ _ _ _ _ _ _ _ hfold with heq | ⟨p, hp, cm, hcm, h1, h2, h3⟩
  · rw [heq] at hr
    cases hr
  have ha : a = assignmentOf (namesOf rs) (minPerm cm rs.length) rs.length := by
    rw [h1] at hr
    exact Option.some_injective _ hr
  have hnames : (namesOf rs).length = rs.length := by rw [namesOf, List.length_map]
  -- the accepted candidate forces a positive encoding base
  have hbigpos : 0 < bigOf (2 * rs.length * mt) := by
    by_contra h0
    push_neg at h0
    have hz : bigOf (2 * rs.length * mt) = 0 := by omega
    rw [hz] at h3
    simp at h3
  have hMpos : 0 < 2 * rs.length * mt := by
    by_contra h0
    push_neg at h0
    have hz : 2 * rs.length * mt = 0 := by omega
    rw [hz] at hbigpos
    simp [bigOf] at hbigpos
  have hNpos : 0 < rs.length := by
    by_contra h0
    push_neg at h0
    have hz : rs.length = 0 := by omega
    rw [hz] at hMpos
    simp at hMpos
  have hble : 2 * rs.length * mt ≤ bigOf (2 * rs.length * mt) := le_bigOf _ (by omega)
  have hbr : 2 * rs.length * mt = rs.length * mt + rs.length * mt := by ring
  have hNmtlt : rs.length * mt < bigOf (2 * rs.length * mt) := by omega
  -- the solver's matching for the winning candidate
  have hσs : (minPerm cm rs.length).Perm (List.range rs.length) := minPerm_perm _ _
  have hσslen : (minPerm cm rs.length).length = rs.length := perm_length_eq _ _ hσs
  have hσA : sigmaOf (namesOf rs) a = minPerm cm rs.length := by
    rw [ha]
    exact sigmaOf_assignmentOf (namesOf rs) _ rs.length hσs hnames hnd
  rw [hσA]
  -- masking facts for the winning candidate p
  rcases (mem_allGroupAssignments race.groups.length gsBig.length p).mp hp with
    ⟨hplen, hpent⟩
  have hokp : ∀ ig2, ig2 < gsBig.length →
      ∃ pi ok, p.get? ig2 = some pi ∧ race.groups.get? pi = some ok := by
    intro ig2 hig2
    cases hpi : p.get? ig2 with
    | none =>
      rw [List.get?_eq_none] at hpi
      omega
    | some pi =>
      have hpik : pi < race.groups.length := hpent pi (List.get?_mem hpi)
      cases hok2 : race.groups.get? pi with
      | none =>
        rw [List.get?_eq_none] at hok2
        omega
      | some ok => exact ⟨pi, ok, rfl, hok2⟩
  have hmemg : ∀ g2 ∈ gsBig, ∀ mem ∈ g2, mem ∈ namesOf rs :=
    fun g2 hg2 mem hm => (bigGroups_inv gs rs gsBig hg g2 hg2).2 mem hm
  have hrect : Rect (encMatrix symC (bigOf (2 * rs.length * mt))) rs.length :=
    encMatrix_rect symC rs.length _ (symbolicC_spec rs race rs.length symC hsym).1
      (symbolicC_spec rs race rs.length symC hsym).2.1
  rcases applyMask_spec (encMatrix symC (bigOf (2 * rs.length * mt)))
      (2 * rs.length * rs.length * bigOf (2 * rs.length * mt)) gsBig race.groups p
      (namesOf rs) rs.length hrect hnames hokp hmemg with ⟨cm2, hcm2, hrect2, hmask, hkeep⟩
  have heqcm : cm2 = cm := by
    rw [hcm] at hcm2
    exact (Option.some_injective _ hcm2).symm
  subst heqcm
  have hnomask : ∀ r2, r2 < rs.length →
      ¬ maskedAt gsBig race.groups p (namesOf rs) rs.length r2
        ((minPerm cm2 rs.length).getD r2 0) := by
    intro r2 hr2 hmasked
    have hh1 := hmask r2 _ hmasked
    have hh2 := entry_le_permCost cm2 (minPerm cm2 rs.length) r2 (by omega)
    omega
  have hpcstar : permCost cm2 (minPerm cm2 rs.length) =
      permCost (encMatrix symC (bigOf (2 * rs.length * mt))) (minPerm cm2 rs.length) :=
    permCost_eq_of_unmasked _ cm2 (minPerm cm2 rs.length) rs.length hσslen
      (fun r2 hr2 => hkeep r2 _ (hnomask r2 hr2))
  -- build the candidate encoded by the feasibility witness of σ
  have hconstr : ∀ ig, ig < gsBig.length → ∃ pi, pi < race.groups.length ∧
      ∃ ok, race.groups.get? pi = some ok ∧
        ∀ g, gsBig.get? ig = some g → ∀ mem ∈ g, ∀ r2,
          (namesOf rs).get? r2 = some mem → (σ.getD r2 0 + 1) ∈ ok := by
    intro ig hig
    have hgg : ∃ g, gsBig.get? ig = some g := by
      cases hgg2 : gsBig.get? ig with
      | none =>
        rw [List.get?_eq_none] at hgg2
        omega
      | some g => exact ⟨g, rfl⟩
    rcases hgg with ⟨g, hgg⟩
    rcases hfeas gsBig hg ig g hgg with ⟨ok, hokmem, hP⟩
    rcases List.get?_of_mem hokmem with ⟨pi, hpi⟩
    refine ⟨pi, get?_some_lt _ _ _ hpi, ok, hpi, ?_⟩
    intro g2 hg2 mem hm r2 hr2
    rw [hgg] at hg2
    have hgeq : g = g2 := Option.some_injective _ hg2
    subst hgeq
    exact hP mem hm r2 hr2
  rcases choose_list race.groups.length
      (fun ig pi => ∃ ok, race.groups.get? pi = some ok ∧
        ∀ g, gsBig.get? ig = some g → ∀ mem ∈ g, ∀ r2,
          (namesOf rs).get? r2 = some mem → (σ.getD r2 0 + 1) ∈ ok)
      gsBig.length hconstr with ⟨q, hqlen, hqbound, hqspec⟩
  have hqmem : q ∈ allGroupAssignments gsBig.length race.groups.length :=
    (mem_allGroupAssignments race.groups.length gsBig.length q).mpr ⟨hqlen, hqbound⟩
  have hokq : ∀ ig2, ig2 < gsBig.length →
      ∃ pi ok, q.get? ig2 = some pi ∧ race.groups.get? pi = some ok := by
    intro ig2 hig2
    rcases hqspec ig2 hig2 with ⟨pi, hget, ok, hok4, _⟩
    exact ⟨pi, ok, hget, hok4⟩
  rcases applyMask_spec (encMatrix symC (bigOf (2 * rs.length * mt)))
      (2 * rs.length * rs.length * bigOf (2 * rs.length * mt)) gsBig race.groups q
      (namesOf rs) rs.length hrect hnames hokq hmemg with
    ⟨cmq, hcmq, hrectq, hmaskq, hkeepq⟩
  have hσlen2 : σ.length = rs.length := perm_length_eq σ rs.length hσ
  have hdσ : ∀ r2, r2 < rs.length → σ.getD r2 0 < rs.length := perm_getD_lt σ rs.length hσ
  have hσunmask : ∀ r2, r2 < rs.length →
      ¬ maskedAt gsBig race.groups q (namesOf rs) rs.length r2 (σ.getD r2 0) := by
    intro r2 hr2 hmasked
    rcases (maskedAt_iff gsBig race.groups q (namesOf rs) rs.length r2 _).mp hmasked with
      ⟨ig, g, pi, ok, hig, hqig, hokg, ⟨mem, hm, hfi⟩, hiN, hcf⟩
    rcases hqspec ig (get?_some_lt _ _ _ hig) with ⟨pi2, hget2, ok2, hok2, hPP⟩
    rw [hqig] at hget2
    have hpieq : pi = pi2 := Option.some_injective _ hget2
    subst hpieq
    rw [hokg] at hok2
    have hokeq : ok = ok2 := Option.some_injective _ hok2
    subst hokeq
    have hr2names : (namesOf rs).get? r2 = some mem := findIdx?_beq_get _ _ _ hfi
    have hin := hPP g hig mem hm r2 hr2names
    rw [contains_of_mem ok _ hin] at hcf
    cases hcf
  have hpcq : permCost cmq σ =
      permCost (encMatrix symC (bigOf (2 * rs.length * mt))) σ :=
    permCost_eq_of_unmasked _ cmq σ rs.length hσlen2
      (fun r2 hr2 => hkeepq r2 _ (hσunmask r2 hr2))
  have hCσlt : permCost (encMatrix symC (bigOf (2 * rs.length * mt))) σ <
      2 * rs.length * rs.length * bigOf (2 * rs.length * mt) :=
    permCost_lt_inf rs race rs.length symC hsym mt hmt hrank _ (by omega) hNmtlt σ
      hσlen2 hdσ
  have hminq : permCost cmq (minPerm cmq rs.length) ≤ permCost cmq σ :=
    minPerm_le cmq rs.length σ hσ
  have hminqlt : permCost cmq (minPerm cmq rs.length) <
      2 * rs.length * rs.length * bigOf (2 * rs.length * mt) := by omega
  have hselmin := (sel_fold_min _ _ _ _ _ _ _ _ _ hfold).2 q hqmem cmq hcmq hminqlt
  -- translate both encoded totals into (sum of ranks, sum of times)
  have hdstar : ∀ r2, r2 < rs.length → (minPerm cm2 rs.length).getD r2 0 < rs.length :=
    perm_getD_lt _ rs.length hσs
  have hentry1 : ∀ r2, r2 < rs.length →
      entry (encMatrix symC (bigOf (2 * rs.length * mt))) r2
          ((minPerm cm2 rs.length).getD r2 0) =
        (entryPair symC r2 ((minPerm cm2 rs.length).getD r2 0)).1 *
            bigOf (2 * rs.length * mt) +
          (entryPair symC r2 ((minPerm cm2 rs.length).getD r2 0)).2 :=
    fun r2 hr2 => entry_enc rs race rs.length symC hsym _ r2 _ hr2 (hdstar r2 hr2)
  have hentry2 : ∀ r2, r2 < rs.length →
      entry (encMatrix symC (bigOf (2 * rs.length * mt))) r2 (σ.getD r2 0) =
        (entryPair symC r2 (σ.getD r2 0)).1 * bigOf (2 * rs.length * mt) +
          (entryPair symC r2 (σ.getD r2 0)).2 :=
    fun r2 hr2 => entry_enc rs race rs.length symC hsym _ r2 _ hr2 (hdσ r2 hr2)
  have hval1 : permCost (encMatrix symC (bigOf (2 * rs.length * mt)))
        (minPerm cm2 rs.length) =
      sumRanks rs rs.length (minPerm cm2 rs.length) * bigOf (2 * rs.length * mt) +
        sumTimes rs race rs.length (minPerm cm2 rs.length) := by
    rw [permCost_eq_encSum symC (bigOf (2 * rs.length * mt)) rs.length
        (minPerm cm2 rs.length) hσslen hentry1, encSum_eq,
      totals_eq rs race rs.length symC hsym (minPerm cm2 rs.length) hdstar]
  have hval2 : permCost (encMatrix symC (bigOf (2 * rs.length * mt))) σ =
      sumRanks rs rs.length σ * bigOf (2 * rs.length * mt) +
        sumTimes rs race rs.length σ := by
    rw [permCost_eq_encSum symC (bigOf (2 * rs.length * mt)) rs.length σ hσlen2 hentry2,
      encSum_eq, totals_eq rs race rs.length symC hsym σ hdσ]
  have htb1 : sumTimes rs race rs.length (minPerm cm2 rs.length) <
      bigOf (2 * rs.length * mt) := by
    have := sumTimes_le rs race rs.length symC hsym mt hmt (minPerm cm2 rs.length) hdstar
    omega
  have htb2 : sumTimes rs race rs.length σ < bigOf (2 * rs.length * mt) := by
    have := sumTimes_le rs race rs.length symC hsym mt hmt σ hdσ
    omega
  have hnum : sumRanks rs rs.length (minPerm cm2 rs.length) * bigOf (2 * rs.length * mt) +
      sumTimes rs race rs.length (minPerm cm2 rs.length) ≤
      sumRanks rs rs.length σ * bigOf (2 * rs.length * mt) +
        sumTimes rs race rs.length σ := by
    rw [← hval1, ← hval2]
    omega
  have hlex := (enc_le_iff (bigOf (2 * rs.length * mt)) _ _ _ _ htb1 htb2).mp hnum
  simp only [lexLe]
  exact hlex

theorem C1_witness :
    lexLe (sumRanks [⟨"A", 1, [1, 2]⟩, ⟨"B", 2, [1, 2]⟩] 2
             (sigmaOf (namesOf [⟨"A", 1, [1, 2]⟩, ⟨"B", 2, [1, 2]⟩]) ["B", "A"]),
           sumTimes [⟨"A", 1, [1, 2]⟩, ⟨"B", 2, [1, 2]⟩] ⟨[[1], [2]], []⟩ 2
             (sigmaOf (namesOf [⟨"A", 1, [1, 2]⟩, ⟨"B", 2, [1, 2]⟩]) ["B", "A"]))
          (sumRanks [⟨"A", 1, [1, 2]⟩, ⟨"B", 2, [1, 2]⟩] 2 [0, 1],
           sumTimes [⟨"A", 1, [1, 2]⟩, ⟨"B", 2, [1, 2]⟩] ⟨[[1], [2]], []⟩ 2 [0, 1]) :=
  C1_optimality [] [⟨"A", 1, [1, 2]⟩, ⟨"B", 2, [1, 2]⟩] ⟨[[1], [2]], []⟩ ["B", "A"] [0, 1]
    (by with_unfolding_all decide) (by with_unfolding_all decide)
    (by with_unfolding_all decide) (by with_unfolding_all decide)
    (by with_unfolding_all decide)
    (by
      intro gsBig hgb ig g hig
      have h0 : bigGroupsOf [] [⟨"A", 1, [1, 2]⟩, ⟨"B", 2, [1, 2]⟩] =
          some ([] : List (List String)) := by with_unfolding_all decide
      rw [h0] at hgb
      have he : ([] : List (List String)) = gsBig := Option.some_injective _ hgb
      subst he
      cases ig <;> cases hig)
